import Mathlib

/-!
Verification of the weighted, bounded-load consistent-hashing ring
(`weighted_consistent.go`).  The Go structure `WeightedConsistent` is
embedded as a Lean structure; Go maps become association lists, the
pluggable 64-bit hasher becomes an abstract function on byte lists, and
`float64` quantities (the load factor and the load table) become exact
rationals.  A Go `panic` is modelled by an operation returning `none`.
-/

/-- Association-list lookup, mirroring a Go map read (`v, ok := m[k]`). -/
def alookup {α β : Type} [DecidableEq α] (k : α) : List (α × β) → Option β
  | [] => none
  | (a, b) :: t => if a = k then some b else alookup k t

/-- Association-list write, mirroring a Go map assignment `m[k] = v`. -/
def aset {α β : Type} [DecidableEq α] (k : α) (v : β) : List (α × β) → List (α × β)
  | [] => [(k, v)]
  | (a, b) :: t => if a = k then (k, v) :: t else (a, b) :: aset k v t

/-- Association-list delete, mirroring Go `delete(m, k)` (keys are unique). -/
def aerase {α β : Type} [DecidableEq α] (k : α) : List (α × β) → List (α × β)
  | [] => []
  | (a, b) :: t => if a = k then t else (a, b) :: aerase k t

/-- Go map read with the zero value as default (`m[k]` when `k` may be absent). -/
def agetD {α β : Type} [DecidableEq α] (k : α) (d : β) (l : List (α × β)) : β :=
  (alookup k l).getD d

/-- Remove an identity from the member-key list, mirroring `delete(c.members, name)`. -/
def removeName (nm : String) : List String → List String
  | [] => []
  | x :: t => if x = nm then t else x :: removeName nm t

/-- One step of insertion sort on hash values. -/
def insertSorted (x : Nat) : List Nat → List Nat
  | [] => [x]
  | h :: t => if x ≤ h then x :: h :: t else h :: insertSorted x t

/-- Ascending sort of the virtual-node hash slice, mirroring `sort.Slice`
on `c.sortedSet` (values are naturals, so any sorted permutation is unique). -/
def sortNat : List Nat → List Nat
  | [] => []
  | h :: t => insertSorted h (sortNat t)

/-- `sort.Search` over the sorted hash slice: index of the first entry `≥ key`
(returns the length when there is none). -/
def searchGE (l : List Nat) (key : Nat) : Nat := l.findIdx (fun x => key ≤ x)

/-- Go `delSlice`: remove the first occurrence of a hash from the slice. -/
def delSlice (v : Nat) : List Nat → List Nat
  | [] => []
  | h :: t => if h = v then t else h :: delSlice v t

/-- Bytes of a member-identity string (one abstract byte per character). -/
def strBytes (s : String) : List Nat := s.data.map Char.toNat

/-- Decimal digits of a natural as ASCII bytes, with fuel for structural recursion. -/
def decChars : Nat → Nat → List Nat
  | 0, _ => []
  | fuel + 1, n => if n < 10 then [n + 48] else decChars fuel (n / 10) ++ [n % 10 + 48]

/-- ASCII decimal rendering of a natural number (`fmt.Sprintf` of an int). -/
def natAscii (n : Nat) : List Nat := decChars (n + 1) n

/-- Bytes hashed for virtual node `i` of a member: `fmt.Sprintf` of the
identity followed by the decimal index. -/
def vnodeBytes (name : String) (i : Nat) : List Nat := strBytes name ++ natAscii i

/-- Little-endian 64-bit encoding of a partition id (`binary.LittleEndian.PutUint64`). -/
def u64le (n : Nat) : List Nat :=
  [n % 256, n / 256 % 256, n / 256 ^ 2 % 256, n / 256 ^ 3 % 256,
   n / 256 ^ 4 % 256, n / 256 ^ 5 % 256, n / 256 ^ 6 % 256, n / 256 ^ 7 % 256]

/-- A weighted member: an identity (`String()`) and a declared weight (`Weight()`,
a Go `int`, possibly non-positive). -/
structure WeightedMember where
  name : String
  weight : Int
deriving DecidableEq

/-- `WeightedConfig`: the hasher plus partition count, base replication factor and
load factor (Go `int`, `int`, `float64`). -/
structure WeightedConfig where
  hasher : List Nat → Nat
  partitionCount : Int
  replicationFactor : Int
  load : ℚ

/-- Default partition count of the base package (applied to a zero field). -/
def DefaultPartitionCount : Int := 271

/-- Default replication factor of the base package (applied to a zero field). -/
def DefaultReplicationFactor : Int := 20

/-- Default load factor of the base package (applied to a zero field). -/
def DefaultLoad : ℚ := 5 / 4

/-- Defaults for zero-valued configuration fields, as applied at the top of
`NewWeighted`.  Modelled from the spec for the numeric values themselves:
the constants live in the base package, which is outside these sources. -/
def WeightedConfig.withDefaults (cfg : WeightedConfig) : WeightedConfig :=
  { cfg with
    partitionCount := if cfg.partitionCount = 0 then DefaultPartitionCount else cfg.partitionCount
    replicationFactor :=
      if cfg.replicationFactor = 0 then DefaultReplicationFactor else cfg.replicationFactor
    load := if cfg.load = 0 then DefaultLoad else cfg.load }

/-- The `WeightedConsistent` ring state (the mutex is omitted: operations are
modelled as whole-state transformers). -/
structure WeightedConsistent where
  hasher : List Nat → Nat
  partitionCount : Nat
  replicationFactor : Int
  loadFactor : ℚ
  sortedSet : List Nat
  loads : List (String × ℚ)
  members : List String
  weights : List (String × Nat)
  totalWeight : Int
  partitions : List (Nat × String)
  ring : List (Nat × String)

/-- `averageLoad`: `0` for an empty ring, otherwise
`ceil(partitionCount / totalWeight * loadFactor)`. -/
def WeightedConsistent.averageLoad (c : WeightedConsistent) : ℚ :=
  if c.members = [] ∨ c.totalWeight = 0 then 0
  else ((⌈(c.partitionCount : ℚ) / (c.totalWeight : ℚ) * c.loadFactor⌉ : ℤ) : ℚ)

/-- The greedy walk of `distributeWithLoad`.  The Go loop increments `count`
before comparing it with `len(c.sortedSet)` and panics when `count >= len`,
so it examines at most `len - 1` ring entries; the fuel argument is that
number of remaining examinations, and exhausting it models the
`"not enough room to distribute partitions"` panic (`none`).  A ring-map
miss (`c.ring[i]` absent) models the nil-pointer panic Go would raise. -/
def WeightedConsistent.distributeWithLoad (c : WeightedConsistent) (partID : Nat) :
    Nat → Nat → List (Nat × String) → List (String × ℚ) →
    Option (List (Nat × String) × List (String × ℚ))
  | 0, _, _, _ => none
  | fuel + 1, idx, parts, loads =>
    match alookup (c.sortedSet.getD idx 0) c.ring with
    | none => none
    | some nm =>
      if agetD nm 0 loads + 1 ≤ c.averageLoad * ((agetD nm (0 : Nat) c.weights : Nat) : ℚ) then
        some (aset partID nm parts, aset nm (agetD nm 0 loads + 1) loads)
      else
        c.distributeWithLoad partID fuel
          (if c.sortedSet.length ≤ idx + 1 then 0 else idx + 1) parts loads

/-- The body of the `distributePartitions` loop for one partition id: hash the
id, binary-search the ring for the insertion point, wrap to 0 past the end,
then run the bounded greedy walk. -/
def WeightedConsistent.distributeOne (c : WeightedConsistent) (partID : Nat)
    (parts : List (Nat × String)) (loads : List (String × ℚ)) :
    Option (List (Nat × String) × List (String × ℚ)) :=
  let idx0 := searchGE c.sortedSet (c.hasher (u64le partID))
  c.distributeWithLoad partID (c.sortedSet.length - 1)
    (if c.sortedSet.length ≤ idx0 then 0 else idx0) parts loads

/-- The `for partID` loop of `distributePartitions` over a list of partition ids. -/
def WeightedConsistent.distributeLoop (c : WeightedConsistent) :
    List Nat → List (Nat × String) × List (String × ℚ) →
    Option (List (Nat × String) × List (String × ℚ))
  | [], acc => some acc
  | pid :: rest, acc =>
    match c.distributeOne pid acc.1 acc.2 with
    | none => none
    | some acc2 => c.distributeLoop rest acc2

/-- `distributePartitions`: rebuild the partition table and load table from
fresh empty maps, assigning every id in `[0, partitionCount)`. -/
def WeightedConsistent.distributePartitions (c : WeightedConsistent) :
    Option WeightedConsistent :=
  match c.distributeLoop (List.range c.partitionCount) ([], []) with
  | none => none
  | some acc => some { c with partitions := acc.1, loads := acc.2 }

/-- Weight normalization at the top of the unexported `add`:
a declared weight `≤ 0` becomes `1`. -/
def normalizeWeight (w : Int) : Nat := if w ≤ 0 then 1 else w.toNat

/-- The unexported `add`: insert `replicationFactor * weight` virtual nodes
into the ring map and the (re-sorted) hash slice, then record the member,
its normalized weight, and the aggregate weight. -/
def WeightedConsistent.add (c : WeightedConsistent) (m : WeightedMember) :
    WeightedConsistent :=
  let weight := normalizeWeight m.weight
  let hs := (List.range (c.replicationFactor * weight).toNat).map
    (fun i => c.hasher (vnodeBytes m.name i))
  { c with
    ring := hs.foldl (fun r h => aset h m.name r) c.ring
    sortedSet := sortNat (c.sortedSet ++ hs)
    members := if m.name ∈ c.members then c.members else c.members ++ [m.name]
    weights := aset m.name weight c.weights
    totalWeight := c.totalWeight + weight }

/-- Public `Add`: a silent no-op on an already-registered identity, otherwise
register the member and rebuild the partition table. -/
def WeightedConsistent.Add (c : WeightedConsistent) (m : WeightedMember) :
    Option WeightedConsistent :=
  if m.name ∈ c.members then some c
  else (c.add m).distributePartitions

/-- The state after the deletion block of `Remove` (virtual nodes recomputed
from the recorded weight and removed from ring and hash slice; member,
weight and aggregate-weight entries deleted), before the empty-ring check. -/
def WeightedConsistent.removeCore (c : WeightedConsistent) (name : String) :
    WeightedConsistent :=
  let hs := (List.range (c.replicationFactor * ((agetD name (0 : Nat) c.weights : Nat) : Int)).toNat).map
    (fun i => c.hasher (vnodeBytes name i))
  { c with
    ring := hs.foldl (fun r h => aerase h r) c.ring
    sortedSet := hs.foldl (fun s h => delSlice h s) c.sortedSet
    members := removeName name c.members
    totalWeight := c.totalWeight - ((agetD name (0 : Nat) c.weights : Nat) : Int)
    weights := aerase name c.weights }

/-- Public `Remove`: a silent no-op on an unknown identity; otherwise delete the
member's state via `removeCore`, then either reset the partition table and the
aggregate weight — leaving the load table untouched — when no members remain,
or rebuild the tables. -/
def WeightedConsistent.Remove (c : WeightedConsistent) (name : String) :
    Option WeightedConsistent :=
  if name ∈ c.members then
    if (c.removeCore name).members = [] then
      some { c.removeCore name with partitions := [], totalWeight := 0 }
    else (c.removeCore name).distributePartitions
  else some c

/-- The initial state allocated by `NewWeighted` before any member is added.
The Go field `partitionCount` is `uint64(config.PartitionCount)`, modelled by
reduction mod `2^64` of the (defaulted) signed value. -/
def initialState (cfg : WeightedConfig) : WeightedConsistent :=
  { hasher := cfg.withDefaults.hasher
    partitionCount := (cfg.withDefaults.partitionCount.emod (2 ^ 64)).toNat
    replicationFactor := cfg.withDefaults.replicationFactor
    loadFactor := cfg.withDefaults.load
    sortedSet := []
    loads := []
    members := []
    weights := []
    totalWeight := 0
    partitions := []
    ring := [] }

/-- `NewWeighted`: add each listed member, then compute the initial partition
table when the member sequence is non-nil (`members != nil` in Go, which is
true for a zero-length non-nil slice).  The argument is an `Option` to keep
the nil / empty distinction; the hasher, being a total function, is always
set. -/
def NewWeighted (members : Option (List WeightedMember)) (cfg : WeightedConfig) :
    Option WeightedConsistent :=
  let c0 := (members.getD []).foldl WeightedConsistent.add (initialState cfg)
  match members with
  | none => some c0
  | some _ => c0.distributePartitions

/-- `LoadDistribution`: a copy of the load table. -/
def WeightedConsistent.LoadDistribution (c : WeightedConsistent) : List (String × ℚ) :=
  c.loads

/-- `WeightDistribution`: a copy of the weight table. -/
def WeightedConsistent.WeightDistribution (c : WeightedConsistent) : List (String × Nat) :=
  c.weights

/-- `GetTotalWeight`. -/
def WeightedConsistent.GetTotalWeight (c : WeightedConsistent) : Int := c.totalWeight

/-- `FindPartitionID`: hash of the key modulo the partition count. -/
def WeightedConsistent.FindPartitionID (c : WeightedConsistent) (key : List Nat) : Nat :=
  c.hasher key % c.partitionCount

/-- `GetPartitionOwner` (and the unexported `getPartitionOwner`):
partition-table lookup, `none` when there is no owner. -/
def WeightedConsistent.GetPartitionOwner (c : WeightedConsistent) (partID : Nat) :
    Option String :=
  alookup partID c.partitions

/-- `LocateKey`: owner of the key's partition. -/
def WeightedConsistent.LocateKey (c : WeightedConsistent) (key : List Nat) : Option String :=
  c.GetPartitionOwner (c.FindPartitionID key)

/-- Outcome of `getClosestN`: the distinguishable insufficient-members error
or a member sequence. -/
inductive ClosestResult where
  | insufficient
  | ok (l : List String)
deriving DecidableEq

/-- The replica walk of `getClosestN`: advance the index (wrapping past the end
of the sorted member-hash slice), append the member owning the key there, and
repeat until enough members are collected (the fuel is the number of members
still needed). -/
def closestWalk (keys : List Nat) (kmems : List (Nat × String)) :
    Nat → Nat → List String
  | _, 0 => []
  | idx, fuel + 1 =>
    (agetD (keys.getD (if keys.length ≤ idx + 1 then 0 else idx + 1) 0) "" kmems) ::
      closestWalk keys kmems (if keys.length ≤ idx + 1 then 0 else idx + 1) fuel

/-- The `kmems` map of `getClosestN`: each member's identity hash mapped to
the member (last write wins on a hash collision, as for a Go map). -/
def WeightedConsistent.memberKeyMap (c : WeightedConsistent) :
    List (Nat × String) :=
  c.members.foldl (fun acc nm => aset (c.hasher (strBytes nm)) nm acc) []

/-- The `keys` slice of `getClosestN`: every member-identity hash, sorted
ascending. -/
def WeightedConsistent.memberKeys (c : WeightedConsistent) : List Nat :=
  sortNat (c.members.map (fun nm => c.hasher (strBytes nm)))

/-- The owner-locating scan of `getClosestN`: index of the first sorted key
equal to `ownerKey` (the slice length when there is none). -/
def WeightedConsistent.ownerIdx (c : WeightedConsistent) (ownerKey : Nat) : Nat :=
  c.memberKeys.findIdx (fun k => decide (k = ownerKey))

/-- The member-collection phase of `getClosestN`, once the partition owner is
known: locate the owner's hash among the sorted member keys (`ownerKey` stays
0 — the `uint64` zero value — when the owner is not registered), seed the
result with the member found there, then walk forward until `count` entries
are gathered. -/
def WeightedConsistent.closestCore (c : WeightedConsistent) (owner : String)
    (count : Int) : List String :=
  let ownerKey := if owner ∈ c.members then c.hasher (strBytes owner) else 0
  let idxF := c.ownerIdx ownerKey
  let res0 := if idxF < c.memberKeys.length then
      [agetD (c.memberKeys.getD idxF 0) "" c.memberKeyMap] else []
  res0 ++ closestWalk c.memberKeys c.memberKeyMap idxF (count - res0.length).toNat

/-- The unexported `getClosestN`.  Fails with the insufficient-members error
when `count` exceeds the member count.  With registered members but no owner
for `partID`, Go dereferences a nil owner inside the member loop (`none`
here); with no members at all (so `count ≤ 0`) the loops never run and the
empty result is returned. -/
def WeightedConsistent.getClosestN (c : WeightedConsistent) (partID : Nat)
    (count : Int) : Option ClosestResult :=
  if c.members.length < count then some .insufficient
  else if c.members = [] then some (.ok [])
  else match alookup partID c.partitions with
    | none => none
    | some owner => some (.ok (c.closestCore owner count))

/-- `GetClosestN`: closest members to a key's partition. -/
def WeightedConsistent.GetClosestN (c : WeightedConsistent) (key : List Nat)
    (count : Int) : Option ClosestResult :=
  c.getClosestN (c.FindPartitionID key) count

/-- `GetClosestNForPartition`: closest members for an explicit partition id. -/
def WeightedConsistent.GetClosestNForPartition (c : WeightedConsistent)
    (partID : Nat) (count : Int) : Option ClosestResult :=
  c.getClosestN partID count

/-- States reachable through the public API: a successful construction,
followed by any number of successful `Add` / `Remove` calls. -/
inductive Reachable : WeightedConsistent → Prop
  | new (mems : Option (List WeightedMember)) (cfg : WeightedConfig)
      (c : WeightedConsistent) (h : NewWeighted mems cfg = some c) : Reachable c
  | add (c : WeightedConsistent) (m : WeightedMember) (c2 : WeightedConsistent)
      (hc : Reachable c) (h : c.Add m = some c2) : Reachable c2
  | remove (c : WeightedConsistent) (nm : String) (c2 : WeightedConsistent)
      (hc : Reachable c) (h : c.Remove nm = some c2) : Reachable c2

/-! ### Association-list and sorting lemmas -/

@[simp]
theorem alookup_aset_self {α β : Type} [DecidableEq α] (k : α) (v : β)
    (l : List (α × β)) : alookup k (aset k v l) = some v := by
  induction l with
  | nil => simp [aset, alookup]
  | cons p t ih =>
    obtain ⟨a, b⟩ := p
    by_cases hak : a = k
    · subst hak; simp [aset, alookup]
    · simp [aset, alookup, hak, ih]

theorem alookup_aset_ne {α β : Type} [DecidableEq α] {k k2 : α} (v : β)
    (l : List (α × β)) (hne : k ≠ k2) : alookup k2 (aset k v l) = alookup k2 l := by
  induction l with
  | nil => simp [aset, alookup, hne]
  | cons p t ih =>
    obtain ⟨a, b⟩ := p
    by_cases hak : a = k
    · subst hak; simp [aset, alookup, hne, ih]
    · simp only [aset, if_neg hak, alookup]
      by_cases hak2 : a = k2 <;> simp [hak2, ih]

theorem agetD_aset_self {α β : Type} [DecidableEq α] (k : α) (v d : β)
    (l : List (α × β)) : agetD k d (aset k v l) = v := by
  simp [agetD]

theorem agetD_aset_ne {α β : Type} [DecidableEq α] {k k2 : α} (v d : β)
    (l : List (α × β)) (hne : k ≠ k2) : agetD k2 d (aset k v l) = agetD k2 d l := by
  simp [agetD, alookup_aset_ne v l hne]

theorem alookup_mem {α β : Type} [DecidableEq α] {k : α} {v : β}
    {l : List (α × β)} (h : alookup k l = some v) : (k, v) ∈ l := by
  induction l with
  | nil => simp [alookup] at h
  | cons p t ih =>
    obtain ⟨a, b⟩ := p
    by_cases hak : a = k
    · subst hak
      simp only [alookup, eq_self_iff_true, if_true, Option.some.injEq] at h
      subst h; exact List.mem_cons_self _ _
    · simp only [alookup, if_neg hak] at h
      exact List.mem_cons_of_mem _ (ih h)

theorem aset_keys_of_not_mem {α β : Type} [DecidableEq α] {k : α} (v : β)
    {l : List (α × β)} (h : ∀ p ∈ l, (p : α × β).1 ≠ k) :
    aset k v l = l ++ [(k, v)] := by
  induction l with
  | nil => simp [aset]
  | cons p t ih =>
    obtain ⟨a, b⟩ := p
    have ha : a ≠ k := h (a, b) (List.mem_cons_self _ _)
    simp only [aset, if_neg ha, List.cons_append, List.cons.injEq, true_and]
    exact ih (fun q hq => h q (List.mem_cons_of_mem _ hq))

@[simp]
theorem length_insertSorted (x : Nat) (l : List Nat) :
    (insertSorted x l).length = l.length + 1 := by
  induction l with
  | nil => simp [insertSorted]
  | cons h t ih =>
    by_cases hx : x ≤ h <;> simp [insertSorted, hx, ih]

@[simp]
theorem length_sortNat (l : List Nat) : (sortNat l).length = l.length := by
  induction l with
  | nil => simp [sortNat]
  | cons h t ih => simp [sortNat, ih]

theorem insertSorted_perm (x : Nat) (l : List Nat) :
    (insertSorted x l).Perm (x :: l) := by
  induction l with
  | nil => simp [insertSorted]
  | cons h t ih =>
    by_cases hx : x ≤ h
    · simp [insertSorted, hx]
    · simp only [insertSorted, if_neg hx]
      exact (ih.cons h).trans (List.Perm.swap x h t)

theorem sortNat_perm (l : List Nat) : (sortNat l).Perm l := by
  induction l with
  | nil => simp [sortNat]
  | cons h t ih => exact (insertSorted_perm h (sortNat t)).trans (ih.cons h)

theorem mem_sortNat {x : Nat} {l : List Nat} : x ∈ sortNat l ↔ x ∈ l :=
  (sortNat_perm l).mem_iff

/-! ### Field preservation through a successful redistribution -/

theorem distributePartitions_fields {c c2 : WeightedConsistent}
    (h : c.distributePartitions = some c2) :
    c2.hasher = c.hasher ∧ c2.partitionCount = c.partitionCount ∧
    c2.replicationFactor = c.replicationFactor ∧ c2.loadFactor = c.loadFactor ∧
    c2.sortedSet = c.sortedSet ∧ c2.members = c.members ∧
    c2.weights = c.weights ∧ c2.totalWeight = c.totalWeight ∧ c2.ring = c.ring := by
  revert h
  unfold WeightedConsistent.distributePartitions
  cases c.distributeLoop (List.range c.partitionCount) ([], []) with
  | none => intro h; cases h
  | some acc =>
    intro h
    cases h
    exact ⟨rfl, rfl, rfl, rfl, rfl, rfl, rfl, rfl, rfl⟩

theorem distributePartitions_result {c c2 : WeightedConsistent}
    (h : c.distributePartitions = some c2) :
    c.distributeLoop (List.range c.partitionCount) ([], []) =
      some (c2.partitions, c2.loads) := by
  revert h
  unfold WeightedConsistent.distributePartitions
  cases c.distributeLoop (List.range c.partitionCount) ([], []) with
  | none => intro h; cases h
  | some acc => intro h; cases h; rfl

/-! ### A concrete scenario used by witnesses: two partitions, one member -/

/-- A concrete hasher for witnesses (any deterministic function qualifies). -/
def sampleHasher : List Nat → Nat := fun l => l.foldl (fun a b => a * 31 + b) 7 % 100

/-- Concrete configuration: 2 partitions, replication factor 2, load factor 2. -/
def cfgS : WeightedConfig := ⟨sampleHasher, 2, 2, 2⟩

/-- The state produced by constructing with the single member `a` of weight 1
under `cfgS` (both partitions land on `a`, whose load is 2). -/
def cS : WeightedConsistent :=
  { hasher := sampleHasher
    partitionCount := 2
    replicationFactor := 2
    loadFactor := 2
    sortedSet := [82, 83]
    loads := [("a", 2)]
    members := ["a"]
    weights := [("a", 1)]
    totalWeight := 1
    partitions := [(0, "a"), (1, "a")]
    ring := [(82, "a"), (83, "a")] }

theorem evalNewS : NewWeighted (some [⟨"a", 1⟩]) cfgS = some cS := by
  norm_num [NewWeighted, initialState, cfgS, WeightedConfig.withDefaults, cS,
    WeightedConsistent.add, sampleHasher, strBytes, vnodeBytes, natAscii, decChars,
    u64le, searchGE, sortNat, insertSorted, aset, alookup, agetD, normalizeWeight,
    WeightedConsistent.distributePartitions, WeightedConsistent.distributeLoop,
    WeightedConsistent.distributeOne, WeightedConsistent.distributeWithLoad,
    WeightedConsistent.averageLoad, List.range_succ, DefaultPartitionCount,
    DefaultReplicationFactor, DefaultLoad,
    show ('a').toNat = 97 from rfl, show (2 : ℤ).toNat = 2 from rfl,
    List.findIdx_cons, List.findIdx_nil, List.getD,
    List.getElem?_cons_zero, List.getElem?_cons_succ]

theorem reachable_cS : Reachable cS := Reachable.new (some [⟨"a", 1⟩]) cfgS cS evalNewS

/-! ### Claim C8 -/

/-- Claim C8: `Add` of an already-registered identity and `Remove` of an
unregistered identity both leave the state unchanged (hence the same member
set, weights, total weight, ring, partition table and load table) and return
normally. -/
theorem Add_registered_Remove_unknown_noop (c : WeightedConsistent)
    (m : WeightedMember) (nm : String) (hm : m.name ∈ c.members)
    (hnm : nm ∉ c.members) : c.Add m = some c ∧ c.Remove nm = some c := by
  constructor
  · unfold WeightedConsistent.Add
    rw [if_pos hm]
  · unfold WeightedConsistent.Remove
    rw [if_neg hnm]

theorem Add_registered_Remove_unknown_noop_witness :
    cS.Add ⟨"a", 5⟩ = some cS ∧ cS.Remove "b" = some cS :=
  Add_registered_Remove_unknown_noop cS ⟨"a", 5⟩ "b" (by decide) (by decide)

/-! ### Claim C4 -/

/-- Claim C4 (amended): removing the only registered member empties the
partition table and zeroes the aggregate weight, but the load table is NOT
reset: `LoadDistribution` still returns the loads from the last
redistribution.  (`Remove` only reassigns `c.partitions` and `c.totalWeight`
in its empty branch and leaves `c.loads` untouched.) -/
theorem Remove_last_member_resets (c : WeightedConsistent) (nm : String)
    (h : c.members = [nm]) :
    (c.Remove nm).map WeightedConsistent.partitions = some [] ∧
    (c.Remove nm).map WeightedConsistent.GetTotalWeight = some 0 ∧
    (c.Remove nm).map WeightedConsistent.LoadDistribution =
      some (c.LoadDistribution) := by
  have hmem : nm ∈ c.members := by rw [h]; exact List.mem_singleton.mpr rfl
  unfold WeightedConsistent.Remove
  rw [if_pos hmem]
  simp [h, removeName, WeightedConsistent.removeCore,
    WeightedConsistent.LoadDistribution, WeightedConsistent.GetTotalWeight]

theorem Remove_last_member_resets_witness :
    (cS.Remove "a").map WeightedConsistent.partitions = some [] ∧
    (cS.Remove "a").map WeightedConsistent.GetTotalWeight = some 0 ∧
    (cS.Remove "a").map WeightedConsistent.LoadDistribution =
      some (cS.LoadDistribution) :=
  Remove_last_member_resets cS "a" rfl

/-- Claim C4 counterexample: `cS` is a reachable state with exactly one
member, yet after `Remove` of that member `LoadDistribution` still returns
the old singleton load table, not the empty one the claim requires. -/
theorem Remove_last_member_loads_cex :
    cS.members = ["a"] ∧ Reachable cS ∧
    (cS.Remove "a").map WeightedConsistent.LoadDistribution = some [("a", 2)] ∧
    (cS.Remove "a").map WeightedConsistent.LoadDistribution ≠ some [] := by
  refine ⟨rfl, reachable_cS, ?_, ?_⟩ <;>
    norm_num [WeightedConsistent.Remove, WeightedConsistent.removeCore, cS,
      aerase, delSlice, removeName,
      agetD, alookup, aset, sampleHasher, strBytes, vnodeBytes, natAscii,
      decChars, List.range_succ, WeightedConsistent.LoadDistribution,
      show ('a').toNat = 97 from rfl]

/-! ### Claim C5 -/

/-- Claim C5 (amended): with the hash provider set, constructing with a NIL
member sequence returns normally in the Empty state (no ring entries, no
partition table, total weight 0, partition table not computed); but
constructing with a zero-length NON-nil sequence still runs the partition
distribution over the empty ring (`members != nil` holds in Go) and raises
the fatal not-enough-room error whenever the effective partition count is
positive. -/
theorem NewWeighted_empty_members (cfg : WeightedConfig)
    (h : 0 < (initialState cfg).partitionCount) :
    NewWeighted none cfg = some (initialState cfg) ∧
    (initialState cfg).sortedSet = [] ∧
    (initialState cfg).partitions = [] ∧
    (initialState cfg).totalWeight = 0 ∧
    (initialState cfg).members = [] ∧
    NewWeighted (some []) cfg = none := by
  refine ⟨rfl, rfl, rfl, rfl, rfl, ?_⟩
  show (initialState cfg).distributePartitions = none
  unfold WeightedConsistent.distributePartitions
  obtain ⟨k, hk⟩ : ∃ k, (initialState cfg).partitionCount = k + 1 :=
    ⟨_, (Nat.succ_pred_eq_of_pos h).symm⟩
  rw [hk, List.range_succ_eq_map]
  have hss : (initialState cfg).sortedSet = [] := rfl
  simp [WeightedConsistent.distributeLoop, WeightedConsistent.distributeOne,
    WeightedConsistent.distributeWithLoad, hss, searchGE]

theorem NewWeighted_empty_members_witness :
    NewWeighted none cfgS = some (initialState cfgS) ∧
    (initialState cfgS).sortedSet = [] ∧
    (initialState cfgS).partitions = [] ∧
    (initialState cfgS).totalWeight = 0 ∧
    (initialState cfgS).members = [] ∧
    NewWeighted (some []) cfgS = none :=
  NewWeighted_empty_members cfgS (by decide)

/-- Claim C5 counterexample: a zero-length non-nil member sequence does NOT
return normally — construction under `cfgS` hits the fatal distribution
error, refuting the claim that null and zero-length member sequences behave
alike. -/
theorem NewWeighted_empty_slice_cex : NewWeighted (some []) cfgS = none := by
  show (initialState cfgS).distributePartitions = none
  norm_num [WeightedConsistent.distributePartitions, cfgS, initialState,
    WeightedConfig.withDefaults, List.range_succ,
    WeightedConsistent.distributeLoop, WeightedConsistent.distributeOne,
    WeightedConsistent.distributeWithLoad, searchGE]

/-! ### Claim C9 -/

/-- Claim C9: a member with declared weight `≤ 0` is recorded with weight
exactly 1, contributes exactly 1 to the aggregate weight, and
`replicationFactor * 1` virtual nodes are inserted for it (observed on the
hash slice, which grows by exactly that many entries). -/
theorem Add_normalizes_nonpositive_weight (c c2 : WeightedConsistent)
    (m : WeightedMember) (hw : m.weight ≤ 0) (hnew : m.name ∉ c.members)
    (h : c.Add m = some c2) :
    alookup m.name c2.weights = some 1 ∧
    c2.totalWeight = c.totalWeight + 1 ∧
    c2.sortedSet.length = c.sortedSet.length +
      (c.replicationFactor * (1 : Int)).toNat := by
  unfold WeightedConsistent.Add at h
  rw [if_neg hnew] at h
  obtain ⟨-, -, -, -, hss, -, hwts, htw, -⟩ := distributePartitions_fields h
  have hnw : normalizeWeight m.weight = 1 := by
    unfold normalizeWeight; rw [if_pos hw]
  refine ⟨?_, ?_, ?_⟩
  · rw [hwts]
    show alookup m.name (c.add m).weights = some 1
    simp [WeightedConsistent.add, hnw]
  · rw [htw]
    show (c.add m).totalWeight = c.totalWeight + 1
    simp [WeightedConsistent.add, hnw]
  · rw [hss]
    show (c.add m).sortedSet.length = c.sortedSet.length +
      (c.replicationFactor * (1 : Int)).toNat
    simp [WeightedConsistent.add, hnw]

theorem evalAddNeg : (initialState cfgS).Add ⟨"a", -3⟩ = some cS := by
  norm_num [WeightedConsistent.Add, initialState, cfgS,
    WeightedConfig.withDefaults, cS,
    WeightedConsistent.add, sampleHasher, strBytes, vnodeBytes, natAscii, decChars,
    u64le, searchGE, sortNat, insertSorted, aset, alookup, agetD, normalizeWeight,
    WeightedConsistent.distributePartitions, WeightedConsistent.distributeLoop,
    WeightedConsistent.distributeOne, WeightedConsistent.distributeWithLoad,
    WeightedConsistent.averageLoad, List.range_succ, DefaultPartitionCount,
    DefaultReplicationFactor, DefaultLoad,
    show ('a').toNat = 97 from rfl, show (2 : ℤ).toNat = 2 from rfl,
    List.findIdx_cons, List.findIdx_nil, List.getD,
    List.getElem?_cons_zero, List.getElem?_cons_succ]

theorem Add_normalizes_nonpositive_weight_witness :
    alookup "a" cS.weights = some 1 ∧
    cS.totalWeight = (initialState cfgS).totalWeight + 1 ∧
    cS.sortedSet.length = (initialState cfgS).sortedSet.length +
      ((initialState cfgS).replicationFactor * (1 : Int)).toNat :=
  Add_normalizes_nonpositive_weight (initialState cfgS) cS ⟨"a", -3⟩
    (by decide) (by decide) evalAddNeg

/-! ### Claim C10 -/

/-- Claim C10: the constructor does not deduplicate by identity.  Registering
the member list `[m, m]` (exactly what `NewWeighted` does before its initial
distribution) doubles the aggregate weight to `2 * normalizedWeight(m)` and
inserts `replicationFactor * normalizedWeight(m)` hash-slice entries per
occurrence — a state different from registering `[m]` once — whereas the
public `Add` of an already-registered identity leaves the state unchanged. -/
theorem NewWeighted_duplicate_member_not_deduped (cfg : WeightedConfig)
    (m : WeightedMember) :
    NewWeighted (some [m, m]) cfg =
      ([m, m].foldl WeightedConsistent.add (initialState cfg)).distributePartitions ∧
    ([m, m].foldl WeightedConsistent.add (initialState cfg)).totalWeight =
      2 * (normalizeWeight m.weight : Int) ∧
    ([m, m].foldl WeightedConsistent.add (initialState cfg)).sortedSet.length =
      2 * ((initialState cfg).replicationFactor *
        (normalizeWeight m.weight : Int)).toNat ∧
    ([m].foldl WeightedConsistent.add (initialState cfg)).totalWeight =
      (normalizeWeight m.weight : Int) ∧
    ([m, m].foldl WeightedConsistent.add (initialState cfg)).totalWeight ≠
      ([m].foldl WeightedConsistent.add (initialState cfg)).totalWeight ∧
    ([m].foldl WeightedConsistent.add (initialState cfg)).Add m =
      some ([m].foldl WeightedConsistent.add (initialState cfg)) := by
  have hnw : 1 ≤ (normalizeWeight m.weight : Int) := by
    unfold normalizeWeight
    by_cases hw : m.weight ≤ 0
    · rw [if_pos hw]; norm_num
    · rw [if_neg hw]
      have : 0 < m.weight := lt_of_not_le hw
      omega
  refine ⟨rfl, ?_, ?_, ?_, ?_, ?_⟩
  · show ((initialState cfg).add m |>.add m).totalWeight = _
    simp [WeightedConsistent.add, initialState]
    ring
  · show ((initialState cfg).add m |>.add m).sortedSet.length = _
    simp [WeightedConsistent.add, initialState]
    ring
  · show ((initialState cfg).add m).totalWeight = _
    simp [WeightedConsistent.add, initialState]
  · show ((initialState cfg).add m |>.add m).totalWeight ≠
      ((initialState cfg).add m).totalWeight
    simp [WeightedConsistent.add, initialState]
    omega
  · show WeightedConsistent.Add _ m = _
    unfold WeightedConsistent.Add
    rw [if_pos]
    show m.name ∈ ((initialState cfg).add m).members
    simp [WeightedConsistent.add, initialState]

/-! ### More association-list lemmas (erasure, key lists) -/

theorem aerase_sublist {α β : Type} [DecidableEq α] (k : α) (l : List (α × β)) :
    (aerase k l).Sublist l := by
  induction l with
  | nil => simp [aerase]
  | cons p t ih =>
    obtain ⟨a, b⟩ := p
    by_cases hak : a = k
    · simp only [aerase, if_pos hak]
      exact List.sublist_cons_self _ _
    · simp only [aerase, if_neg hak]
      exact ih.cons₂ _

theorem alookup_eq_none_of_not_mem {α β : Type} [DecidableEq α] {k : α}
    {l : List (α × β)} (h : k ∉ l.map Prod.fst) : alookup k l = none := by
  induction l with
  | nil => rfl
  | cons p t ih =>
    obtain ⟨a, b⟩ := p
    simp only [List.map_cons, List.mem_cons, not_or] at h
    rw [alookup, if_neg (fun hh : a = k => h.1 hh.symm)]
    exact ih h.2

theorem alookup_aerase_ne {α β : Type} [DecidableEq α] {k k2 : α}
    (l : List (α × β)) (hne : k2 ≠ k) :
    alookup k2 (aerase k l) = alookup k2 l := by
  induction l with
  | nil => rfl
  | cons p t ih =>
    obtain ⟨a, b⟩ := p
    by_cases hak : a = k
    · rw [aerase, if_pos hak, alookup, if_neg (fun hh : a = k2 => hne (hak ▸ hh.symm ▸ rfl))]
    · by_cases hak2 : a = k2
      · rw [aerase, if_neg hak, alookup, if_pos hak2, alookup, if_pos hak2]
      · rw [aerase, if_neg hak, alookup, if_neg hak2, alookup, if_neg hak2, ih]

theorem alookup_aerase_self {α β : Type} [DecidableEq α] {k : α}
    {l : List (α × β)} (hnd : (l.map Prod.fst).Nodup) :
    alookup k (aerase k l) = none := by
  induction l with
  | nil => rfl
  | cons p t ih =>
    obtain ⟨a, b⟩ := p
    simp only [List.map_cons, List.nodup_cons] at hnd
    by_cases hak : a = k
    · rw [aerase, if_pos hak]
      exact alookup_eq_none_of_not_mem (hak ▸ hnd.1)
    · rw [aerase, if_neg hak, alookup, if_neg hak]
      exact ih hnd.2

theorem aset_map_fst_mem {α β : Type} [DecidableEq α] (k : α) (v : β)
    (l : List (α × β)) (h : k ∈ l.map Prod.fst) :
    (aset k v l).map Prod.fst = l.map Prod.fst := by
  induction l with
  | nil => simp at h
  | cons p t ih =>
    obtain ⟨a, b⟩ := p
    by_cases hak : a = k
    · subst hak; simp [aset]
    · simp only [List.map_cons, List.mem_cons] at h
      have hk : k ∈ t.map Prod.fst := by
        rcases h with h | h
        · exact absurd h.symm hak
        · exact h
      simp [aset, hak, ih hk]

theorem aset_map_fst_not_mem {α β : Type} [DecidableEq α] (k : α) (v : β)
    (l : List (α × β)) (h : k ∉ l.map Prod.fst) :
    (aset k v l).map Prod.fst = l.map Prod.fst ++ [k] := by
  have heq : aset k v l = l ++ [(k, v)] := by
    refine aset_keys_of_not_mem v (fun p hp hpk => h ?_)
    rw [← hpk]
    exact List.mem_map_of_mem Prod.fst hp
  rw [heq]; simp

theorem removeName_sublist (nm : String) (l : List String) :
    (removeName nm l).Sublist l := by
  induction l with
  | nil => simp [removeName]
  | cons x t ih =>
    by_cases hx : x = nm
    · simp only [removeName, if_pos hx]
      exact List.sublist_cons_self _ _
    · simp only [removeName, if_neg hx]
      exact ih.cons₂ _

theorem mem_removeName_of_ne {nm x : String} {l : List String} (hne : x ≠ nm)
    (hx : x ∈ l) : x ∈ removeName nm l := by
  induction l with
  | nil => simp at hx
  | cons y t ih =>
    by_cases hy : y = nm
    · simp only [removeName, if_pos hy]
      rcases List.mem_cons.mp hx with h | h
      · exact absurd (h.trans hy) hne
      · exact h
    · simp only [removeName, if_neg hy]
      rcases List.mem_cons.mp hx with h | h
      · exact h ▸ List.mem_cons_self _ _
      · exact List.mem_cons_of_mem _ (ih h)

theorem removeName_eq_nil {nm : String} {l : List String}
    (h : removeName nm l = []) : l = [] ∨ l = [nm] := by
  cases l with
  | nil => exact Or.inl rfl
  | cons x t =>
    by_cases hx : x = nm
    · subst hx
      simp only [removeName, if_pos rfl] at h
      subst h
      exact Or.inr rfl
    · simp only [removeName, if_neg hx] at h
      cases h

/-! ### Loads: summation and the walk-success decomposition -/

/-- Sum of the recorded loads over a list of member identities. -/
def loadSum (names : List String) (loads : List (String × ℚ)) : ℚ :=
  (names.map (fun nm => agetD nm 0 loads)).sum

theorem loadSum_cons (y : String) (t : List String) (loads : List (String × ℚ)) :
    loadSum (y :: t) loads = agetD y 0 loads + loadSum t loads := by
  simp [loadSum]

theorem loadSum_congr {names : List String} {l1 l2 : List (String × ℚ)}
    (h : ∀ z ∈ names, agetD z 0 l1 = agetD z 0 l2) :
    loadSum names l1 = loadSum names l2 := by
  unfold loadSum
  rw [List.map_congr_left h]

theorem loadSum_aset {names : List String} (hnd : names.Nodup) {nm : String}
    (hmem : nm ∈ names) (x : ℚ) (loads : List (String × ℚ)) :
    loadSum names (aset nm x loads) =
      loadSum names loads + (x - agetD nm 0 loads) := by
  induction names with
  | nil => simp at hmem
  | cons y t ih =>
    rw [List.nodup_cons] at hnd
    rcases List.mem_cons.mp hmem with h | h
    · subst h
      rw [loadSum_cons, loadSum_cons, agetD_aset_self]
      have ht : ∀ z ∈ t, agetD z 0 (aset nm x loads) = agetD z 0 loads :=
        fun z hz => agetD_aset_ne _ _ _ (fun hzn => hnd.1 (hzn ▸ hz))
      rw [loadSum_congr ht]
      ring
    · have hyn : y ≠ nm := fun hy => hnd.1 (hy ▸ h)
      rw [loadSum_cons, loadSum_cons, agetD_aset_ne _ _ _ (fun hh => hyn hh.symm), ih hnd.2 h]
      ring

/-- Decomposition of a successful greedy walk: some member `nm` satisfied the
load check against the (unchanged) incoming load table, and the accumulators
were extended exactly once for it. -/
theorem distributeWithLoad_some {c : WeightedConsistent} {pid : Nat}
    {fuel idx : Nat} {parts parts2 : List (Nat × String)}
    {loads loads2 : List (String × ℚ)}
    (h : c.distributeWithLoad pid fuel idx parts loads = some (parts2, loads2)) :
    ∃ nm, agetD nm 0 loads + 1 ≤
        c.averageLoad * ((agetD nm (0 : Nat) c.weights : Nat) : ℚ) ∧
      parts2 = aset pid nm parts ∧
      loads2 = aset nm (agetD nm 0 loads + 1) loads := by
  induction fuel generalizing idx with
  | zero => cases h
  | succ n ih =>
    rw [WeightedConsistent.distributeWithLoad] at h
    split at h
    · cases h
    · rename_i nm hr
      split at h
      · rename_i hg
        injection h with h2
        injection h2 with hA hB
        exact ⟨nm, hg, hA.symm, hB.symm⟩
      · exact ih h

theorem distributeOne_some {c : WeightedConsistent} {pid : Nat}
    {parts parts2 : List (Nat × String)} {loads loads2 : List (String × ℚ)}
    (h : c.distributeOne pid parts loads = some (parts2, loads2)) :
    ∃ nm, agetD nm 0 loads + 1 ≤
        c.averageLoad * ((agetD nm (0 : Nat) c.weights : Nat) : ℚ) ∧
      parts2 = aset pid nm parts ∧
      loads2 = aset nm (agetD nm 0 loads + 1) loads := by
  unfold WeightedConsistent.distributeOne at h
  exact distributeWithLoad_some h

/-! ### The distribution loop invariant -/

theorem distributeLoop_invariant (c : WeightedConsistent)
    (hnd : c.members.Nodup)
    (hreg : ∀ nm w, alookup nm c.weights = some w → nm ∈ c.members) :
    ∀ (n j : Nat) (parts : List (Nat × String)) (loads : List (String × ℚ))
      (parts2 : List (Nat × String)) (loads2 : List (String × ℚ)),
      c.distributeLoop (List.range' j n) (parts, loads) = some (parts2, loads2) →
      parts.map Prod.fst = List.range j →
      (∀ nm, 0 ≤ agetD nm 0 loads) →
      (∀ nm, agetD nm 0 loads ≤
        max 0 (c.averageLoad * ((agetD nm (0 : Nat) c.weights : Nat) : ℚ))) →
      loadSum c.members loads = (j : ℚ) →
      (∀ p nm, alookup p parts = some nm → nm ∈ c.members) →
      parts2.map Prod.fst = List.range (j + n) ∧
      (∀ nm, 0 ≤ agetD nm 0 loads2) ∧
      (∀ nm, agetD nm 0 loads2 ≤
        max 0 (c.averageLoad * ((agetD nm (0 : Nat) c.weights : Nat) : ℚ))) ∧
      loadSum c.members loads2 = ((j + n : Nat) : ℚ) ∧
      (∀ p nm, alookup p parts2 = some nm → nm ∈ c.members) := by
  intro n
  induction n with
  | zero =>
    intro j parts loads parts2 loads2 h hk h0 hb hs hv
    simp only [List.range', WeightedConsistent.distributeLoop,
      Option.some.injEq, Prod.mk.injEq] at h
    obtain ⟨rfl, rfl⟩ := h
    exact ⟨by simpa using hk, h0, hb, by simpa using hs, hv⟩
  | succ n ih =>
    intro j parts loads parts2 loads2 h hk h0 hb hs hv
    rw [show List.range' j (n + 1) = j :: List.range' (j + 1) n from rfl] at h
    rw [WeightedConsistent.distributeLoop] at h
    split at h
    · cases h
    · rename_i acc2 hone
      obtain ⟨pa, lo⟩ := acc2
      obtain ⟨nm, hg, rfl, rfl⟩ := distributeOne_some hone
      -- the eligible member is registered: its recorded weight cannot be 0
      have hmem : nm ∈ c.members := by
        cases halk : alookup nm c.weights with
        | none =>
          exfalso
          have hw0 : (agetD nm (0 : Nat) c.weights : Nat) = 0 := by
            simp [agetD, halk]
          rw [hw0] at hg
          have := h0 nm
          push_cast at hg
          nlinarith
        | some w => exact hreg nm w halk
      have hjk : (j : Nat) ∉ parts.map Prod.fst := by
        rw [hk]
        simp
      -- facts for the new accumulators
      have hk2 : (aset j nm parts).map Prod.fst = List.range (j + 1) := by
        rw [aset_map_fst_not_mem _ _ _ hjk, hk, List.range_succ]
      have h02 : ∀ nm2, 0 ≤ agetD nm2 0 (aset nm (agetD nm 0 loads + 1) loads) := by
        intro nm2
        by_cases hn2 : nm = nm2
        · subst hn2
          rw [agetD_aset_self]
          have := h0 nm
          linarith
        · rw [agetD_aset_ne _ _ _ hn2]
          exact h0 nm2
      have hb2 : ∀ nm2, agetD nm2 0 (aset nm (agetD nm 0 loads + 1) loads) ≤
          max 0 (c.averageLoad * ((agetD nm2 (0 : Nat) c.weights : Nat) : ℚ)) := by
        intro nm2
        by_cases hn2 : nm = nm2
        · subst hn2
          rw [agetD_aset_self]
          exact le_max_of_le_right hg
        · rw [agetD_aset_ne _ _ _ hn2]
          exact hb nm2
      have hs2 : loadSum c.members (aset nm (agetD nm 0 loads + 1) loads) =
          ((j + 1 : Nat) : ℚ) := by
        rw [loadSum_aset hnd hmem, hs]
        push_cast
        ring
      have hv2 : ∀ p nm2, alookup p (aset j nm parts) = some nm2 →
          nm2 ∈ c.members := by
        intro p nm2 hp
        by_cases hpj : (j : Nat) = p
        · subst hpj
          rw [alookup_aset_self] at hp
          cases hp
          exact hmem
        · rw [alookup_aset_ne _ _ hpj] at hp
          exact hv p nm2 hp
      have := ih (j + 1) _ _ _ _ h hk2 h02 hb2 hs2 hv2
      have harith : j + 1 + n = j + (n + 1) := by omega
      rw [harith] at this
      exact this

theorem loadSum_loads_nil (names : List String) : loadSum names [] = 0 := by
  induction names with
  | nil => rfl
  | cons y t ih => rw [loadSum_cons, ih]; simp [agetD, alookup]

/-- Invariants of one successful run of `distributePartitions`: the new table
covers exactly the partition ids `[0, partitionCount)`, every value is a
registered member, the loads sum to the partition count, and every load obeys
the weighted bound. -/
theorem distributePartitions_invariants {c c2 : WeightedConsistent}
    (hnd : c.members.Nodup)
    (hreg : ∀ nm w, alookup nm c.weights = some w → nm ∈ c.members)
    (h : c.distributePartitions = some c2) :
    c2.partitions.map Prod.fst = List.range c.partitionCount ∧
    (∀ p nm, alookup p c2.partitions = some nm → nm ∈ c.members) ∧
    loadSum c.members c2.loads = (c.partitionCount : ℚ) ∧
    (∀ nm, 0 ≤ agetD nm 0 c2.loads) ∧
    (∀ nm, agetD nm 0 c2.loads ≤
      max 0 (c.averageLoad * ((agetD nm (0 : Nat) c.weights : Nat) : ℚ))) := by
  have hres := distributePartitions_result h
  rw [List.range_eq_range'] at hres
  have hmain := distributeLoop_invariant c hnd hreg c.partitionCount 0 [] [] _ _
    hres (by simp) (fun nm => le_of_eq rfl)
    (fun nm => le_max_left _ _) (by rw [loadSum_loads_nil]; simp)
    (fun p nm hp => by cases hp)
  obtain ⟨k1, k2, k3, k4, k5⟩ := hmain
  refine ⟨by simpa using k1, k5, by simpa using k4, k2, k3⟩

/-- If the distribution succeeded then the average load was nonnegative:
either the partition count is zero (average load 0), or the first partition
got assigned, which forces a strictly positive load budget. -/
theorem averageLoad_nonneg_of_some {c c2 : WeightedConsistent}
    (h : c.distributePartitions = some c2) : 0 ≤ c.averageLoad := by
  cases hpc : c.partitionCount with
  | zero =>
    unfold WeightedConsistent.averageLoad
    split
    · exact le_refl 0
    · rw [hpc]
      push_cast
      simp
  | succ k =>
    have hres := distributePartitions_result h
    rw [hpc, List.range_eq_range',
      show List.range' 0 (k + 1) = 0 :: List.range' 1 k from rfl] at hres
    rw [WeightedConsistent.distributeLoop] at hres
    split at hres
    · cases hres
    · rename_i acc2 hone
      obtain ⟨pa, lo⟩ := acc2
      obtain ⟨nm, hg, -, -⟩ := distributeOne_some hone
      have hz : agetD nm 0 ([] : List (String × ℚ)) = 0 := rfl
      rw [hz] at hg
      by_contra hneg
      push_neg at hneg
      nlinarith [show (0 : ℚ) ≤ ((agetD nm (0 : Nat) c.weights : Nat) : ℚ) from
        Nat.cast_nonneg _]

/-- The rebuilt-table invariant of a populated state: partition table keys are
exactly `[0, partitionCount)`, partition owners are registered members, loads
are nonnegative, sum to the partition count and respect the weighted bound,
and the average load is nonnegative. -/
def TableInv (c : WeightedConsistent) : Prop :=
  c.partitions.map Prod.fst = List.range c.partitionCount ∧
  (∀ p nm, alookup p c.partitions = some nm → nm ∈ c.members) ∧
  loadSum c.members c.loads = (c.partitionCount : ℚ) ∧
  (∀ nm, 0 ≤ agetD nm 0 c.loads) ∧
  (∀ nm, agetD nm 0 c.loads ≤
    max 0 (c.averageLoad * ((agetD nm (0 : Nat) c.weights : Nat) : ℚ))) ∧
  0 ≤ c.averageLoad

/-- Structural well-formedness of a ring state: unique member identities,
unique weight keys, weight keys registered, and — once populated — the
rebuilt-table invariant. -/
def StateWF (c : WeightedConsistent) : Prop :=
  c.members.Nodup ∧ (c.weights.map Prod.fst).Nodup ∧
  (∀ nm w, alookup nm c.weights = some w → nm ∈ c.members) ∧
  (c.members ≠ [] → TableInv c)

theorem tableInv_of_distributePartitions {c c2 : WeightedConsistent}
    (hnd : c.members.Nodup)
    (hreg : ∀ nm w, alookup nm c.weights = some w → nm ∈ c.members)
    (h : c.distributePartitions = some c2) : TableInv c2 := by
  obtain ⟨-, hpc, -, hlf, -, hmem, hwts, htw, -⟩ := distributePartitions_fields h
  obtain ⟨k1, k2, k3, k4, k5⟩ := distributePartitions_invariants hnd hreg h
  have havg : c2.averageLoad = c.averageLoad := by
    unfold WeightedConsistent.averageLoad
    rw [hmem, htw, hpc, hlf]
  refine ⟨?_, ?_, ?_, k4, ?_, ?_⟩
  · rw [hpc]; exact k1
  · intro p nm hp; rw [hmem]; exact k2 p nm hp
  · rw [hmem, hpc]; exact k3
  · intro nm; rw [havg, hwts]; exact k5 nm
  · rw [havg]; exact averageLoad_nonneg_of_some h

/-- The three registry components of `StateWF` survive the unexported `add`. -/
theorem registry_add (c : WeightedConsistent) (m : WeightedMember)
    (h1 : c.members.Nodup) (h2 : (c.weights.map Prod.fst).Nodup)
    (h3 : ∀ nm w, alookup nm c.weights = some w → nm ∈ c.members) :
    (c.add m).members.Nodup ∧ ((c.add m).weights.map Prod.fst).Nodup ∧
    (∀ nm w, alookup nm (c.add m).weights = some w → nm ∈ (c.add m).members) := by
  have hmems : (c.add m).members =
      if m.name ∈ c.members then c.members else c.members ++ [m.name] := rfl
  have hwts : (c.add m).weights = aset m.name (normalizeWeight m.weight) c.weights := rfl
  refine ⟨?_, ?_, ?_⟩
  · rw [hmems]
    split
    · exact h1
    · rename_i hn
      exact List.Nodup.append h1 (List.nodup_singleton _) (by simpa using hn)
  · rw [hwts]
    by_cases hk : m.name ∈ c.weights.map Prod.fst
    · rw [aset_map_fst_mem _ _ _ hk]; exact h2
    · rw [aset_map_fst_not_mem _ _ _ hk]
      exact List.Nodup.append h2 (List.nodup_singleton _) (by simpa using hk)
  · intro nm w hw
    rw [hwts] at hw
    rw [hmems]
    by_cases hn : nm = m.name
    · subst hn
      split
      · assumption
      · exact List.mem_append_right _ (List.mem_singleton.mpr rfl)
    · rw [alookup_aset_ne _ _ (fun hh => hn hh.symm)] at hw
      have := h3 nm w hw
      split
      · exact this
      · exact List.mem_append_left _ this

/-- The three registry components of `StateWF` survive the deletion block of
`Remove`. -/
theorem registry_remove (c : WeightedConsistent) (name : String)
    (h1 : c.members.Nodup) (h2 : (c.weights.map Prod.fst).Nodup)
    (h3 : ∀ nm w, alookup nm c.weights = some w → nm ∈ c.members) :
    (c.removeCore name).members.Nodup ∧
    ((c.removeCore name).weights.map Prod.fst).Nodup ∧
    (∀ nm w, alookup nm (c.removeCore name).weights = some w →
      nm ∈ (c.removeCore name).members) := by
  have hmems : (c.removeCore name).members = removeName name c.members := rfl
  have hwts : (c.removeCore name).weights = aerase name c.weights := rfl
  refine ⟨?_, ?_, ?_⟩
  · rw [hmems]; exact (removeName_sublist name c.members).nodup h1
  · rw [hwts]; exact ((aerase_sublist name c.weights).map Prod.fst).nodup h2
  · intro nm w hw
    rw [hwts] at hw
    rw [hmems]
    by_cases hn : nm = name
    · subst hn
      rw [alookup_aerase_self h2] at hw
      cases hw
    · rw [alookup_aerase_ne _ hn] at hw
      exact mem_removeName_of_ne hn (h3 nm w hw)

theorem registry_foldl_add : ∀ (l : List WeightedMember) (c : WeightedConsistent),
    c.members.Nodup → (c.weights.map Prod.fst).Nodup →
    (∀ nm w, alookup nm c.weights = some w → nm ∈ c.members) →
    (l.foldl WeightedConsistent.add c).members.Nodup ∧
    ((l.foldl WeightedConsistent.add c).weights.map Prod.fst).Nodup ∧
    (∀ nm w, alookup nm (l.foldl WeightedConsistent.add c).weights = some w →
      nm ∈ (l.foldl WeightedConsistent.add c).members)
  | [], _, h1, h2, h3 => ⟨h1, h2, h3⟩
  | m :: t, c, h1, h2, h3 => by
    obtain ⟨g1, g2, g3⟩ := registry_add c m h1 h2 h3
    exact registry_foldl_add t (c.add m) g1 g2 g3

theorem stateWF_initial (cfg : WeightedConfig) : StateWF (initialState cfg) := by
  refine ⟨List.nodup_nil, by simp [initialState], ?_, ?_⟩
  · intro nm w hw
    simp [initialState, alookup] at hw
  · intro hne
    exact absurd rfl hne

/-- Every reachable state is well formed. -/
theorem reachable_stateWF {c : WeightedConsistent} (h : Reachable c) :
    StateWF c := by
  induction h with
  | new mems cfg c hnew =>
    cases mems with
    | none =>
      simp only [NewWeighted, Option.getD, List.foldl] at hnew
      cases hnew
      exact stateWF_initial cfg
    | some l =>
      simp only [NewWeighted, Option.getD] at hnew
      obtain ⟨g1, g2, g3⟩ := registry_foldl_add l (initialState cfg)
        (stateWF_initial cfg).1 (stateWF_initial cfg).2.1 (stateWF_initial cfg).2.2.1
      obtain ⟨-, -, -, -, -, hmem, hwts, -, -⟩ := distributePartitions_fields hnew
      exact ⟨hmem ▸ g1, hwts ▸ g2,
        fun nm w hw => hmem ▸ g3 nm w (hwts ▸ hw),
        fun _ => tableInv_of_distributePartitions g1 g3 hnew⟩
  | add c m c2 hc h ih =>
    unfold WeightedConsistent.Add at h
    split at h
    · cases h; exact ih
    · obtain ⟨g1, g2, g3⟩ := registry_add c m ih.1 ih.2.1 ih.2.2.1
      obtain ⟨-, -, -, -, -, hmem, hwts, -, -⟩ := distributePartitions_fields h
      exact ⟨hmem ▸ g1, hwts ▸ g2,
        fun nm w hw => hmem ▸ g3 nm w (hwts ▸ hw),
        fun _ => tableInv_of_distributePartitions g1 g3 h⟩
  | remove c nm c2 hc h ih =>
    unfold WeightedConsistent.Remove at h
    split at h
    · obtain ⟨g1, g2, g3⟩ := registry_remove c nm ih.1 ih.2.1 ih.2.2.1
      split at h
      · rename_i hempty
        cases h
        refine ⟨g1, g2, g3, fun hne => absurd hempty hne⟩
      · obtain ⟨-, -, -, -, -, hmem, hwts, -, -⟩ := distributePartitions_fields h
        exact ⟨hmem ▸ g1, hwts ▸ g2,
          fun nm2 w hw => hmem ▸ g3 nm2 w (hwts ▸ hw),
          fun _ => tableInv_of_distributePartitions g1 g3 h⟩
    · cases h; exact ih

theorem alookup_isSome_of_mem_keys {α β : Type} [DecidableEq α] {k : α}
    {l : List (α × β)} (h : k ∈ l.map Prod.fst) : ∃ v, alookup k l = some v := by
  induction l with
  | nil => simp at h
  | cons p t ih =>
    obtain ⟨a, b⟩ := p
    by_cases hak : a = k
    · exact ⟨b, by rw [alookup, if_pos hak]⟩
    · rw [List.map_cons, List.mem_cons] at h
      rcases h with h | h
      · exact absurd h.symm hak
      · obtain ⟨v, hv⟩ := ih h
        exact ⟨v, by rw [alookup, if_neg hak]; exact hv⟩

/-! ### Claim C1 -/

/-- Claim C1: in any reachable populated state, every member's load is at most
`ceil(avgLoad * weight[m])`, where `avgLoad` is the code's `averageLoad`,
which — whenever the aggregate weight is nonzero — equals
`ceil(partitionCount / totalWeight * loadFactor)`. -/
theorem bounded_load_invariant (c : WeightedConsistent) (h : Reachable c)
    (hne : c.members ≠ []) (nm : String) :
    agetD nm 0 c.loads ≤
      ((⌈c.averageLoad * ((agetD nm (0 : Nat) c.weights : Nat) : ℚ)⌉ : ℤ) : ℚ) ∧
    (c.totalWeight ≠ 0 → c.averageLoad =
      ((⌈(c.partitionCount : ℚ) / (c.totalWeight : ℚ) * c.loadFactor⌉ : ℤ) : ℚ)) := by
  obtain ⟨-, -, -, htab⟩ := reachable_stateWF h
  obtain ⟨-, -, -, -, hb, havg⟩ := htab hne
  constructor
  · have h1 := hb nm
    have h2 : max 0 (c.averageLoad * ((agetD nm (0 : Nat) c.weights : Nat) : ℚ)) =
        c.averageLoad * ((agetD nm (0 : Nat) c.weights : Nat) : ℚ) :=
      max_eq_right (mul_nonneg havg (Nat.cast_nonneg _))
    rw [h2] at h1
    exact h1.trans (Int.le_ceil _)
  · intro htw
    unfold WeightedConsistent.averageLoad
    rw [if_neg (by push_neg; exact ⟨hne, htw⟩)]

theorem bounded_load_invariant_witness :
    agetD "a" 0 cS.loads ≤
      ((⌈cS.averageLoad * ((agetD "a" (0 : Nat) cS.weights : Nat) : ℚ)⌉ : ℤ) : ℚ) ∧
    (cS.totalWeight ≠ 0 → cS.averageLoad =
      ((⌈(cS.partitionCount : ℚ) / (cS.totalWeight : ℚ) * cS.loadFactor⌉ : ℤ) : ℚ)) :=
  bounded_load_invariant cS reachable_cS (by decide) "a"

/-! ### Claim C2 -/

/-- Claim C2: in any reachable populated state the member loads sum exactly to
`partitionCount`, and the partition table assigns every id in
`[0, partitionCount)` to exactly one registered member (its key list is
exactly `range partitionCount`, so each id occurs exactly once). -/
theorem total_load_invariant (c : WeightedConsistent) (h : Reachable c)
    (hne : c.members ≠ []) :
    loadSum c.members c.loads = (c.partitionCount : ℚ) ∧
    c.partitions.map Prod.fst = List.range c.partitionCount ∧
    (∀ pid, pid < c.partitionCount →
      ∃ nm, alookup pid c.partitions = some nm ∧ nm ∈ c.members) := by
  obtain ⟨-, -, -, htab⟩ := reachable_stateWF h
  obtain ⟨hkeys, hvals, hsum, -, -, -⟩ := htab hne
  refine ⟨hsum, hkeys, fun pid hpid => ?_⟩
  have hmemk : pid ∈ c.partitions.map Prod.fst := by
    rw [hkeys]
    exact List.mem_range.mpr hpid
  obtain ⟨nm, hnm⟩ := alookup_isSome_of_mem_keys hmemk
  exact ⟨nm, hnm, hvals pid nm hnm⟩

theorem total_load_invariant_witness :
    loadSum cS.members cS.loads = (cS.partitionCount : ℚ) ∧
    cS.partitions.map Prod.fst = List.range cS.partitionCount :=
  ⟨(total_load_invariant cS reachable_cS (by decide)).1,
   (total_load_invariant cS reachable_cS (by decide)).2.1⟩

/-! ### Claim C3: the infeasibility condition of the greedy walk -/

/-- A ring position is eligible for a partition under the given load table:
its virtual node resolves to a member whose incremented load stays within the
weighted budget. -/
def Eligible (c : WeightedConsistent) (loads : List (String × ℚ)) (pos : Nat) :
    Prop :=
  ∃ nm, alookup (c.sortedSet.getD pos 0) c.ring = some nm ∧
    agetD nm 0 loads + 1 ≤ c.averageLoad * ((agetD nm (0 : Nat) c.weights : Nat) : ℚ)

theorem getD_mem_of_lt {l : List Nat} {i : Nat} (h : i < l.length) :
    l.getD i 0 ∈ l := by
  rw [List.getD_eq_getElem?_getD, List.getElem?_eq_getElem h]
  exact List.getElem_mem _

/-- Claim C3 (amended): the fatal not-enough-room error is raised exactly when
NONE of the first `len(sortedSet) - 1` ring entries from the start position —
one FEWER than a full circuit, because the Go loop increments `count` before
comparing it with `len(sortedSet)` — is eligible; when an eligible member
occurs among those entries the partition is assigned and no error occurs.  An
eligible member sitting only at the final position of the circuit does not
avert the error (see the counterexample). -/
theorem distributeWithLoad_none_iff (c : WeightedConsistent) (pid : Nat)
    (parts : List (Nat × String)) (loads : List (String × ℚ))
    (idx : Nat) (hidx : idx < c.sortedSet.length)
    (hring : ∀ h ∈ c.sortedSet, (alookup h c.ring).isSome) :
    c.distributeWithLoad pid (c.sortedSet.length - 1) idx parts loads = none ↔
      ∀ k < c.sortedSet.length - 1,
        ¬ Eligible c loads ((idx + k) % c.sortedSet.length) := by
  have hn : 0 < c.sortedSet.length := lt_of_le_of_lt (Nat.zero_le idx) hidx
  -- generalize the fuel
  suffices hgen : ∀ (fuel idx2 : Nat), idx2 < c.sortedSet.length →
      (c.distributeWithLoad pid fuel idx2 parts loads = none ↔
        ∀ k < fuel, ¬ Eligible c loads ((idx2 + k) % c.sortedSet.length)) by
    exact hgen _ idx hidx
  intro fuel
  induction fuel with
  | zero =>
    intro idx2 hidx2
    simp [WeightedConsistent.distributeWithLoad]
  | succ f ih =>
    intro idx2 hidx2
    rw [WeightedConsistent.distributeWithLoad]
    have hmem := getD_mem_of_lt hidx2
    obtain ⟨nm, hnm⟩ := Option.isSome_iff_exists.mp (hring _ hmem)
    rw [hnm]
    show (if agetD nm 0 loads + 1 ≤
          c.averageLoad * ((agetD nm (0 : Nat) c.weights : Nat) : ℚ) then
        some (aset pid nm parts, aset nm (agetD nm 0 loads + 1) loads)
      else c.distributeWithLoad pid f
        (if c.sortedSet.length ≤ idx2 + 1 then 0 else idx2 + 1) parts loads) =
        none ↔
      ∀ k < f + 1, ¬ Eligible c loads ((idx2 + k) % c.sortedSet.length)
    have hidx2m : idx2 % c.sortedSet.length = idx2 := Nat.mod_eq_of_lt hidx2
    by_cases hg : agetD nm 0 loads + 1 ≤
        c.averageLoad * ((agetD nm (0 : Nat) c.weights : Nat) : ℚ)
    · rw [if_pos hg]
      constructor
      · intro hcontra; cases hcontra
      · intro hall
        exfalso
        refine hall 0 (Nat.succ_pos f) ?_
        rw [Nat.add_zero, hidx2m]
        exact ⟨nm, hnm, hg⟩
    · rw [if_neg hg]
      have hidx3 : (if c.sortedSet.length ≤ idx2 + 1 then 0 else idx2 + 1) =
          (idx2 + 1) % c.sortedSet.length := by
        split
        · rename_i hle
          have : idx2 + 1 = c.sortedSet.length := le_antisymm hidx2 hle
          rw [this, Nat.mod_self]
        · rename_i hlt
          exact (Nat.mod_eq_of_lt (lt_of_not_le hlt)).symm
      rw [hidx3]
      have hlt3 : (idx2 + 1) % c.sortedSet.length < c.sortedSet.length :=
        Nat.mod_lt _ hn
      rw [ih _ hlt3]
      constructor
      · intro hall k hk
        cases k with
        | zero =>
          rw [Nat.add_zero, hidx2m]
          intro ⟨nm2, hnm2, hg2⟩
          rw [hnm2] at hnm
          cases hnm
          exact hg hg2
        | succ j =>
          have hj : j < f := Nat.lt_of_succ_lt_succ hk
          have := hall j hj
          rw [Nat.mod_add_mod, show idx2 + 1 + j = idx2 + (j + 1) by omega] at this
          exact this
      · intro hall j hj
        have := hall (j + 1) (Nat.succ_lt_succ hj)
        rw [show idx2 + (j + 1) = idx2 + 1 + j by omega, ← Nat.mod_add_mod] at this
        exact this

/-- Configuration with one partition, replication factor 1 and load factor 2:
its single-member ring has exactly one virtual node, so the greedy walk gets
zero examinations before the fatal error. -/
def cfgF : WeightedConfig := ⟨sampleHasher, 1, 1, 2⟩

/-- The state of the single member `a` registered under `cfgF`, right before
the initial distribution runs. -/
def c1F : WeightedConsistent := (initialState cfgF).add ⟨"a", 1⟩

/-- Claim C3 counterexample: in `c1F` the start position itself (within one
full circuit of the one-entry ring) is eligible — the member's budget
`avgLoad * weight = 2` admits the partition — yet construction raises the
fatal error, because the walk is allowed only `len(sortedSet) - 1 = 0`
examinations. -/
theorem infeasibility_offbyone_cex :
    Eligible c1F [] 0 ∧ NewWeighted (some [⟨"a", 1⟩]) cfgF = none := by
  constructor
  · refine ⟨"a", ?_, ?_⟩
    · norm_num [c1F, cfgF, initialState, WeightedConfig.withDefaults,
        WeightedConsistent.add, sampleHasher, strBytes, vnodeBytes, natAscii,
        decChars, sortNat, insertSorted, aset, alookup, normalizeWeight,
        DefaultPartitionCount, DefaultReplicationFactor, DefaultLoad,
        List.range_succ, List.getD, List.getElem?_cons_zero,
        show ('a').toNat = 97 from rfl]
    · norm_num [c1F, cfgF, initialState, WeightedConfig.withDefaults,
        WeightedConsistent.add, WeightedConsistent.averageLoad, agetD, alookup,
        aset, sampleHasher, strBytes, vnodeBytes, natAscii, decChars, sortNat,
        insertSorted, normalizeWeight, DefaultPartitionCount,
        DefaultReplicationFactor, DefaultLoad, List.range_succ,
        show ('a').toNat = 97 from rfl, show (1 : ℤ).toNat = 1 from rfl]
  · show ((initialState cfgF).add ⟨"a", 1⟩).distributePartitions = none
    norm_num [WeightedConsistent.distributePartitions, c1F, cfgF, initialState,
      WeightedConfig.withDefaults, WeightedConsistent.add, sampleHasher,
      strBytes, vnodeBytes, natAscii, decChars, sortNat, insertSorted, aset,
      alookup, normalizeWeight, WeightedConsistent.distributeLoop,
      WeightedConsistent.distributeOne, WeightedConsistent.distributeWithLoad,
      searchGE, u64le, List.range_succ, DefaultPartitionCount,
      DefaultReplicationFactor, DefaultLoad,
      show ('a').toNat = 97 from rfl, show (1 : ℤ).toNat = 1 from rfl,
      List.findIdx_cons, List.findIdx_nil, List.getD,
      List.getElem?_cons_zero, List.getElem?_cons_succ]

theorem distributeWithLoad_none_iff_witness :
    cS.distributeWithLoad 0 (cS.sortedSet.length - 1) 0 [] [] ≠ none := by
  intro hnone
  have hiff := distributeWithLoad_none_iff cS 0 [] [] 0 (by decide) (by decide)
  have hnotel := hiff.mp hnone 0 (by decide)
  refine hnotel ⟨"a", by decide, ?_⟩
  have hz : agetD "a" 0 ([] : List (String × ℚ)) = 0 := rfl
  rw [hz]
  have hw : (agetD "a" (0 : Nat) cS.weights : Nat) = 1 := by decide
  rw [hw]
  have havg : cS.averageLoad = 4 := by
    norm_num [WeightedConsistent.averageLoad, cS]
  rw [havg]
  norm_num

/-! ### Claim C7: a single member owns every partition -/

theorem one_le_normalizeWeight (w : Int) : 1 ≤ normalizeWeight w := by
  unfold normalizeWeight
  split
  · exact le_refl 1
  · rename_i hw
    omega

theorem alookup_aset_cases {α β : Type} [DecidableEq α] {k k2 : α} {v w : β}
    {l : List (α × β)} (h : alookup k2 (aset k v l) = some w) :
    (k2 = k ∧ w = v) ∨ alookup k2 l = some w := by
  by_cases hk : k2 = k
  · subst hk
    rw [alookup_aset_self] at h
    exact Or.inl ⟨rfl, (Option.some.inj h).symm⟩
  · rw [alookup_aset_ne _ _ (fun hh => hk hh.symm)] at h
    exact Or.inr h

theorem alookup_foldl_aset_const {nmv : String} :
    ∀ (hs : List Nat) (r : List (Nat × String)),
    (∀ h v, alookup h r = some v → v = nmv) →
    ∀ h v, alookup h (hs.foldl (fun acc x => aset x nmv acc) r) = some v → v = nmv
  | [], _, hr => hr
  | x :: t, r, hr => by
    refine alookup_foldl_aset_const t (aset x nmv r) ?_
    intro h v hv
    rcases alookup_aset_cases hv with ⟨-, rfl⟩ | hv2
    · rfl
    · exact hr h v hv2

theorem isSome_alookup_aset {α β : Type} [DecidableEq α] {k2 : α}
    {l : List (α × β)} (k : α) (v : β) (h : (alookup k2 l).isSome) :
    (alookup k2 (aset k v l)).isSome := by
  by_cases hk : k2 = k
  · subst hk
    rw [alookup_aset_self]
    rfl
  · rw [alookup_aset_ne _ _ (fun hh => hk hh.symm)]
    exact h

theorem isSome_foldl_aset {nmv : String} :
    ∀ (hs : List Nat) (r : List (Nat × String)) (k : Nat),
    (alookup k r).isSome →
    (alookup k (hs.foldl (fun acc x => aset x nmv acc) r)).isSome
  | [], _, _, h => h
  | x :: t, r, k, h =>
    isSome_foldl_aset t (aset x nmv r) k (isSome_alookup_aset x nmv h)

theorem cover_foldl_aset {nmv : String} :
    ∀ (hs : List Nat) (r : List (Nat × String)),
    ∀ h ∈ hs, (alookup h (hs.foldl (fun acc x => aset x nmv acc) r)).isSome := by
  intro hs
  induction hs with
  | nil => intro r h hmem; cases hmem
  | cons x t ih =>
    intro r h hmem
    rcases List.mem_cons.mp hmem with hx | ht
    · subst hx
      refine isSome_foldl_aset t (aset h nmv r) h ?_
      rw [alookup_aset_self]
      rfl
    · exact ih (aset x nmv r) h ht

theorem distributeLoop_cons (c : WeightedConsistent) (pid : Nat)
    (rest : List Nat) (parts : List (Nat × String)) (loads : List (String × ℚ)) :
    c.distributeLoop (pid :: rest) (parts, loads) =
      match c.distributeOne pid parts loads with
      | none => none
      | some acc2 => c.distributeLoop rest acc2 := rfl

/-- With every ring entry owned by the single member `nm`, enough fuel and a
sufficient total budget, the distribution loop assigns every processed
partition to `nm` and tracks its load exactly. -/
theorem singleLoop (c1 : WeightedConsistent) (nm : String)
    (hall : ∀ h v, alookup h c1.ring = some v → v = nm)
    (hcov : ∀ h ∈ c1.sortedSet, (alookup h c1.ring).isSome)
    (hlen : 2 ≤ c1.sortedSet.length) :
    ∀ (n j : Nat) (parts : List (Nat × String)) (loads : List (String × ℚ)),
      agetD nm 0 loads = (j : ℚ) →
      (((j + n : Nat) : ℚ) ≤
        c1.averageLoad * ((agetD nm (0 : Nat) c1.weights : Nat) : ℚ)) →
      ∃ parts2 loads2,
        c1.distributeLoop (List.range' j n) (parts, loads) = some (parts2, loads2) ∧
        agetD nm 0 loads2 = ((j + n : Nat) : ℚ) ∧
        (∀ pid, alookup pid parts2 =
          if j ≤ pid ∧ pid < j + n then some nm else alookup pid parts) := by
  intro n
  induction n with
  | zero =>
    intro j parts loads hld hcap
    refine ⟨parts, loads, by simp [List.range', WeightedConsistent.distributeLoop],
      by simpa using hld, fun pid => ?_⟩
    rw [if_neg (by omega)]
  | succ nn ih =>
    intro j parts loads hld hcap
    have hn0 : 0 < c1.sortedSet.length := by omega
    -- the step always assigns at the first examined entry
    have hstep : c1.distributeOne j parts loads =
        some (aset j nm parts, aset nm (agetD nm 0 loads + 1) loads) := by
      obtain ⟨f, hf⟩ : ∃ f, c1.sortedSet.length - 1 = f + 1 :=
        ⟨c1.sortedSet.length - 2, by omega⟩
      have hidxlt : (if c1.sortedSet.length ≤ searchGE c1.sortedSet
            (c1.hasher (u64le j)) then 0
          else searchGE c1.sortedSet (c1.hasher (u64le j))) < c1.sortedSet.length := by
        split
        · exact hn0
        · rename_i hgt
          exact lt_of_not_le hgt
      show c1.distributeWithLoad j (c1.sortedSet.length - 1) _ parts loads = _
      rw [hf, WeightedConsistent.distributeWithLoad]
      obtain ⟨v, hv⟩ := Option.isSome_iff_exists.mp
        (hcov _ (getD_mem_of_lt hidxlt))
      have hvnm : v = nm := hall _ _ hv
      rw [hvnm] at hv
      rw [hv]
      show (if agetD nm 0 loads + 1 ≤
            c1.averageLoad * ((agetD nm (0 : Nat) c1.weights : Nat) : ℚ) then
          some (aset j nm parts, aset nm (agetD nm 0 loads + 1) loads)
        else _) = _
      rw [if_pos ?hguard]
      case hguard =>
        rw [hld]
        have hcast : ((j : ℚ) + 1) ≤ ((j + (nn + 1) : Nat) : ℚ) := by
          push_cast
          linarith
        exact hcast.trans hcap
    rw [show List.range' j (nn + 1) = j :: List.range' (j + 1) nn from rfl,
      distributeLoop_cons, hstep]
    have hld2 : agetD nm 0 (aset nm (agetD nm 0 loads + 1) loads) =
        ((j + 1 : Nat) : ℚ) := by
      rw [agetD_aset_self, hld]
      push_cast
      ring
    have hcap2 : (((j + 1) + nn : Nat) : ℚ) ≤
        c1.averageLoad * ((agetD nm (0 : Nat) c1.weights : Nat) : ℚ) := by
      have : ((j + 1) + nn : Nat) = (j + (nn + 1) : Nat) := by omega
      rw [this]
      exact hcap
    obtain ⟨parts2, loads2, hloop, hldf, hpart⟩ :=
      ih (j + 1) (aset j nm parts) (aset nm (agetD nm 0 loads + 1) loads)
        hld2 hcap2
    refine ⟨parts2, loads2, hloop, ?_, ?_⟩
    · rw [hldf]
      congr 1
      omega
    · intro pid
      rw [hpart pid]
      by_cases hpj : pid = j
      · subst hpj
        rw [if_neg (by omega), alookup_aset_self, if_pos (by omega)]
      · by_cases hin : j + 1 ≤ pid ∧ pid < j + 1 + nn
        · rw [if_pos hin, if_pos (by omega)]
        · rw [if_neg hin, if_neg (by omega),
            alookup_aset_ne _ _ (fun hh => hpj hh.symm)]

/-- Claim C7 (amended): a single member added to an empty ring ends up owning
every partition, with its load equal to the partition count — provided the
configuration is feasible for the walk: load factor `≥ 1`, a positive
effective partition count, and at least TWO virtual nodes
(`replicationFactor * normalizedWeight ≥ 2`), since the walk of a one-entry
ring gets zero examinations and always raises the fatal error (see the
counterexample). -/
theorem single_member_full_ownership (cfg : WeightedConfig) (m : WeightedMember)
    (hL : 1 ≤ (initialState cfg).loadFactor)
    (hpc : 0 < (initialState cfg).partitionCount)
    (hrep : 2 ≤ ((initialState cfg).replicationFactor *
      ((normalizeWeight m.weight : Nat) : Int)).toNat) :
    ∃ c2, (initialState cfg).Add m = some c2 ∧
      c2.partitionCount = (initialState cfg).partitionCount ∧
      (∀ pid, pid < c2.partitionCount → alookup pid c2.partitions = some m.name) ∧
      agetD m.name 0 c2.loads = (c2.partitionCount : ℚ) := by
  have hnw : 1 ≤ normalizeWeight m.weight := one_le_normalizeWeight m.weight
  have hm1 : ((initialState cfg).add m).members = [m.name] := by
    simp [WeightedConsistent.add, initialState]
  have hw1 : ((initialState cfg).add m).weights =
      [(m.name, normalizeWeight m.weight)] := by
    simp [WeightedConsistent.add, initialState, aset]
  have htw : ((initialState cfg).add m).totalWeight =
      ((normalizeWeight m.weight : Nat) : Int) := by
    simp [WeightedConsistent.add, initialState]
  have haget : (agetD m.name (0 : Nat) ((initialState cfg).add m).weights : Nat) =
      normalizeWeight m.weight := by
    rw [hw1]
    simp [agetD, alookup]
  have hring : ∀ h v, alookup h ((initialState cfg).add m).ring = some v →
      v = m.name := by
    have : ((initialState cfg).add m).ring =
        ((List.range ((initialState cfg).replicationFactor *
          ((normalizeWeight m.weight : Nat) : Int)).toNat).map
            (fun i => (initialState cfg).hasher (vnodeBytes m.name i))).foldl
          (fun acc x => aset x m.name acc) [] := rfl
    rw [this]
    exact alookup_foldl_aset_const _ _ (fun h v hv => by cases hv)
  have hcov : ∀ h ∈ ((initialState cfg).add m).sortedSet,
      (alookup h ((initialState cfg).add m).ring).isSome := by
    intro h hmem
    have hmem2 : h ∈ (List.range ((initialState cfg).replicationFactor *
        ((normalizeWeight m.weight : Nat) : Int)).toNat).map
          (fun i => (initialState cfg).hasher (vnodeBytes m.name i)) := by
      have : ((initialState cfg).add m).sortedSet =
          sortNat ([] ++ (List.range ((initialState cfg).replicationFactor *
            ((normalizeWeight m.weight : Nat) : Int)).toNat).map
              (fun i => (initialState cfg).hasher (vnodeBytes m.name i))) := rfl
      rw [this] at hmem
      simpa using mem_sortNat.mp hmem
    exact cover_foldl_aset _ _ h hmem2
  have hlen : 2 ≤ ((initialState cfg).add m).sortedSet.length := by
    have : ((initialState cfg).add m).sortedSet.length =
        ((initialState cfg).replicationFactor *
          ((normalizeWeight m.weight : Nat) : Int)).toNat := by
      show (sortNat _).length = _
      rw [length_sortNat]
      simp [initialState]
    rw [this]
    exact hrep
  have htwne : ((initialState cfg).add m).totalWeight ≠ 0 := by
    rw [htw]
    simp
    omega
  have havg : ((initialState cfg).add m).averageLoad =
      ((⌈(((initialState cfg).add m).partitionCount : ℚ) /
        (((initialState cfg).add m).totalWeight : ℚ) *
        ((initialState cfg).add m).loadFactor⌉ : ℤ) : ℚ) := by
    unfold WeightedConsistent.averageLoad
    rw [if_neg (by push_neg; exact ⟨by rw [hm1]; simp, htwne⟩)]
  have hcap : ((((initialState cfg).add m).partitionCount : Nat) : ℚ) ≤
      ((initialState cfg).add m).averageLoad *
        ((agetD m.name (0 : Nat) ((initialState cfg).add m).weights : Nat) : ℚ) := by
    rw [havg, haget, htw]
    set pc : ℚ := (((initialState cfg).add m).partitionCount : ℚ) with hpcq
    set w : ℚ := ((normalizeWeight m.weight : Nat) : ℚ) with hwq
    have hwpos : 0 < w := by
      rw [hwq]
      exact_mod_cast hnw
    have hpcnn : 0 ≤ pc := by
      rw [hpcq]
      exact Nat.cast_nonneg _
    have hLq : 1 ≤ ((initialState cfg).add m).loadFactor := hL
    have hcast : (((normalizeWeight m.weight : Nat) : Int) : ℚ) = w := by
      push_cast
      rw [hwq]
    rw [hcast]
    calc pc = pc / w * w := (div_mul_cancel₀ pc (ne_of_gt hwpos)).symm
      _ ≤ pc / w * ((initialState cfg).add m).loadFactor * w := by
          have h1 : pc / w ≤ pc / w * ((initialState cfg).add m).loadFactor :=
            le_mul_of_one_le_right (div_nonneg hpcnn (le_of_lt hwpos)) hLq
          exact mul_le_mul_of_nonneg_right h1 (le_of_lt hwpos)
      _ ≤ ((⌈pc / w * ((initialState cfg).add m).loadFactor⌉ : ℤ) : ℚ) * w :=
          mul_le_mul_of_nonneg_right (Int.le_ceil _) (le_of_lt hwpos)
  obtain ⟨parts2, loads2, hloop, hld2, hpart⟩ :=
    singleLoop ((initialState cfg).add m) m.name hring hcov hlen
      ((initialState cfg).add m).partitionCount 0 [] [] rfl (by simpa using hcap)
  refine ⟨{ (initialState cfg).add m with partitions := parts2, loads := loads2 },
    ?_, rfl, ?_, ?_⟩
  · unfold WeightedConsistent.Add
    rw [if_neg (show m.name ∉ (initialState cfg).members from List.not_mem_nil m.name)]
    unfold WeightedConsistent.distributePartitions
    rw [List.range_eq_range', hloop]
  · intro pid hpid
    have := hpart pid
    rw [if_pos (by exact ⟨Nat.zero_le _, by simpa using hpid⟩)] at this
    exact this
  · show agetD m.name 0 loads2 = _
    rw [hld2]
    simp

/-- Claim C7 counterexample: with partition count 1, replication factor 1 and
load factor 2 (`cfgF`), adding one member of weight 1 to the empty ring does
NOT yield a fully assigned table — the mutation raises the fatal
not-enough-room error, although `partitionCount ≥ 1` and
`replicationFactor ≥ 1` hold as the claim requires. -/
theorem single_member_add_fatal_cex :
    (initialState cfgF).replicationFactor = 1 ∧
    0 < (initialState cfgF).partitionCount ∧
    1 ≤ (initialState cfgF).loadFactor ∧
    (initialState cfgF).Add ⟨"a", 1⟩ = none := by
  refine ⟨by decide, by decide, ?_, ?_⟩
  · norm_num [initialState, cfgF, WeightedConfig.withDefaults, DefaultLoad]
  · show ((initialState cfgF).add ⟨"a", 1⟩).distributePartitions = none
    norm_num [WeightedConsistent.distributePartitions, cfgF, initialState,
      WeightedConfig.withDefaults, WeightedConsistent.add, sampleHasher,
      strBytes, vnodeBytes, natAscii, decChars, sortNat, insertSorted, aset,
      alookup, normalizeWeight, WeightedConsistent.distributeLoop,
      WeightedConsistent.distributeOne, WeightedConsistent.distributeWithLoad,
      searchGE, u64le, List.range_succ, DefaultPartitionCount,
      DefaultReplicationFactor, DefaultLoad,
      show ('a').toNat = 97 from rfl, show (1 : ℤ).toNat = 1 from rfl,
      List.findIdx_cons, List.findIdx_nil, List.getD,
      List.getElem?_cons_zero, List.getElem?_cons_succ]

theorem evalAddOne : (initialState cfgS).Add ⟨"a", 1⟩ = some cS := by
  norm_num [WeightedConsistent.Add, initialState, cfgS,
    WeightedConfig.withDefaults, cS,
    WeightedConsistent.add, sampleHasher, strBytes, vnodeBytes, natAscii, decChars,
    u64le, searchGE, sortNat, insertSorted, aset, alookup, agetD, normalizeWeight,
    WeightedConsistent.distributePartitions, WeightedConsistent.distributeLoop,
    WeightedConsistent.distributeOne, WeightedConsistent.distributeWithLoad,
    WeightedConsistent.averageLoad, List.range_succ, DefaultPartitionCount,
    DefaultReplicationFactor, DefaultLoad,
    show ('a').toNat = 97 from rfl, show (2 : ℤ).toNat = 2 from rfl,
    List.findIdx_cons, List.findIdx_nil, List.getD,
    List.getElem?_cons_zero, List.getElem?_cons_succ]

theorem single_member_full_ownership_witness :
    alookup 0 cS.partitions = some "a" ∧ alookup 1 cS.partitions = some "a" ∧
    agetD "a" 0 cS.loads = (cS.partitionCount : ℚ) := by
  obtain ⟨c2, hadd, hpc, hall, hload⟩ :=
    single_member_full_ownership cfgS ⟨"a", 1⟩
      (by norm_num [initialState, cfgS, WeightedConfig.withDefaults, DefaultLoad])
      (by decide) (by decide)
  have hceq : c2 = cS := Option.some.inj (evalAddOne.symm.trans hadd).symm
  subst hceq
  refine ⟨hall 0 (by rw [hpc]; decide), hall 1 (by rw [hpc]; decide), hload⟩

/-! ### Claim C6: member-hash map and replica-walk lemmas -/

theorem alookup_foldl_asetf_sound (f : String → Nat) :
    ∀ (l : List String) (acc : List (Nat × String)) (k : Nat) (v : String),
    alookup k (l.foldl (fun a nm => aset (f nm) nm a) acc) = some v →
    (v ∈ l ∧ f v = k) ∨ alookup k acc = some v
  | [], _, _, _, h => Or.inr h
  | nm :: t, acc, k, v, h => by
    rcases alookup_foldl_asetf_sound f t (aset (f nm) nm acc) k v h with ⟨hv, hf⟩ | h2
    · exact Or.inl ⟨List.mem_cons_of_mem _ hv, hf⟩
    · rcases alookup_aset_cases h2 with ⟨hk, hvnm⟩ | h3
      · subst hvnm
        exact Or.inl ⟨List.mem_cons_self _ _, hk.symm⟩
      · exact Or.inr h3

theorem isSome_foldl_asetf (f : String → Nat) :
    ∀ (l : List String) (acc : List (Nat × String)) (k : Nat),
    (alookup k acc).isSome →
    (alookup k (l.foldl (fun a nm => aset (f nm) nm a) acc)).isSome
  | [], _, _, h => h
  | nm :: t, acc, k, h =>
    isSome_foldl_asetf f t (aset (f nm) nm acc) k (isSome_alookup_aset _ _ h)

theorem cover_foldl_asetf (f : String → Nat) :
    ∀ (l : List String) (acc : List (Nat × String)),
    ∀ nm ∈ l, (alookup (f nm) (l.foldl (fun a x => aset (f x) x a) acc)).isSome := by
  intro l
  induction l with
  | nil => intro acc nm hmem; cases hmem
  | cons x t ih =>
    intro acc nm hmem
    rcases List.mem_cons.mp hmem with hx | ht
    · subst hx
      refine isSome_foldl_asetf f t (aset (f nm) nm acc) (f nm) ?_
      rw [alookup_aset_self]
      rfl
    · exact ih (aset (f x) x acc) nm ht

/-- In the member-hash map, the hash of a registered member resolves to that
member, provided member identities have pairwise distinct hashes. -/
theorem alookup_kmems (members : List String) (f : String → Nat)
    (hinj : ∀ a ∈ members, ∀ b ∈ members, f a = f b → a = b)
    {nm : String} (hmem : nm ∈ members) :
    alookup (f nm) (members.foldl (fun a x => aset (f x) x a) []) = some nm := by
  obtain ⟨v, hv⟩ := Option.isSome_iff_exists.mp
    (cover_foldl_asetf f members [] nm hmem)
  rcases alookup_foldl_asetf_sound f members [] (f nm) v hv with ⟨hvmem, hf⟩ | h2
  · rw [hv]
    exact congrArg some (hinj v hvmem nm hmem hf)
  · cases h2

/-- The replica walk visits successive wrapped positions: element `t` is the
member at position `(idx + t + 1) mod len`. -/
theorem closestWalk_eq_map (keys : List Nat) (kmems : List (Nat × String)) :
    ∀ (fuel idx : Nat), idx < keys.length →
    closestWalk keys kmems idx fuel =
      (List.range fuel).map
        (fun t => agetD (keys.getD ((idx + t + 1) % keys.length) 0) "" kmems) := by
  intro fuel
  induction fuel with
  | zero => intro idx hidx; simp [closestWalk]
  | succ f ih =>
    intro idx hidx
    have hlen : 0 < keys.length := lt_of_le_of_lt (Nat.zero_le _) hidx
    have hidx2 : (if keys.length ≤ idx + 1 then 0 else idx + 1) =
        (idx + 1) % keys.length := by
      split
      · rename_i hle
        have : idx + 1 = keys.length := le_antisymm hidx hle
        rw [this, Nat.mod_self]
      · rename_i hlt
        exact (Nat.mod_eq_of_lt (lt_of_not_le hlt)).symm
    rw [closestWalk, hidx2, ih _ (Nat.mod_lt _ hlen),
      List.range_succ_eq_map, List.map_cons, List.map_map]
    congr 1
    refine List.map_congr_left (fun t ht => ?_)
    simp only [Function.comp_apply]
    have harg : ((idx + 1) % keys.length + t + 1) % keys.length =
        (idx + (t + 1) + 1) % keys.length := by
      rw [Nat.add_assoc ((idx + 1) % keys.length) t 1, Nat.mod_add_mod]
      congr 1
      omega
    rw [harg]

theorem memberKeys_length (c : WeightedConsistent) :
    c.memberKeys.length = c.members.length := by
  unfold WeightedConsistent.memberKeys
  rw [length_sortNat, List.length_map]

theorem memberKeys_nodup (c : WeightedConsistent) (hnd : c.members.Nodup)
    (hinj : ∀ a ∈ c.members, ∀ b ∈ c.members,
      c.hasher (strBytes a) = c.hasher (strBytes b) → a = b) :
    c.memberKeys.Nodup := by
  unfold WeightedConsistent.memberKeys
  exact ((sortNat_perm _).nodup_iff).mpr (List.Nodup.map_on hinj hnd)

/-- Every sorted member key resolves through the `kmems` map to the unique
member hashing to it. -/
theorem memberKeys_entry (c : WeightedConsistent)
    (hinj : ∀ a ∈ c.members, ∀ b ∈ c.members,
      c.hasher (strBytes a) = c.hasher (strBytes b) → a = b) :
    ∀ pos, pos < c.memberKeys.length →
      ∃ nm, nm ∈ c.members ∧
        c.memberKeys.getD pos 0 = c.hasher (strBytes nm) ∧
        agetD (c.memberKeys.getD pos 0) "" c.memberKeyMap = nm := by
  intro pos hpos
  have hmemsk : c.memberKeys.getD pos 0 ∈ c.memberKeys := getD_mem_of_lt hpos
  have hmemkeys : c.memberKeys.getD pos 0 ∈
      c.members.map (fun nm => c.hasher (strBytes nm)) := mem_sortNat.mp hmemsk
  obtain ⟨nm, hnm, hfnm⟩ := List.mem_map.mp hmemkeys
  refine ⟨nm, hnm, hfnm.symm, ?_⟩
  rw [← hfnm]
  show (alookup (c.hasher (strBytes nm)) c.memberKeyMap).getD "" = nm
  rw [show c.memberKeyMap =
    c.members.foldl (fun a x => aset (c.hasher (strBytes x)) x a) [] from rfl]
  rw [alookup_kmems c.members (fun x => c.hasher (strBytes x)) hinj hnm]
  rfl

/-- The per-member facts of `closestCore` under collision-free identity
hashes: the collected list has exactly `count` entries, no duplicates, starts
with the owner, and contains only registered members. -/
theorem closestCore_spec (c : WeightedConsistent) (owner : String) (count : Int)
    (hnd : c.members.Nodup)
    (hinj : ∀ a ∈ c.members, ∀ b ∈ c.members,
      c.hasher (strBytes a) = c.hasher (strBytes b) → a = b)
    (howner : owner ∈ c.members)
    (h1 : 1 ≤ count) (h2 : count ≤ (c.members.length : Int)) :
    (c.closestCore owner count).length = count.toNat ∧
    (c.closestCore owner count).Nodup ∧
    (c.closestCore owner count).head? = some owner ∧
    ∀ x ∈ c.closestCore owner count, x ∈ c.members := by
  have hlen : c.memberKeys.length = c.members.length := memberKeys_length c
  have hsknd : c.memberKeys.Nodup := memberKeys_nodup c hnd hinj
  have hentry := memberKeys_entry c hinj
  have hfmem : c.hasher (strBytes owner) ∈ c.memberKeys := by
    show _ ∈ sortNat _
    exact mem_sortNat.mpr (List.mem_map_of_mem _ howner)
  have hidxlt : c.ownerIdx (c.hasher (strBytes owner)) < c.memberKeys.length := by
    unfold WeightedConsistent.ownerIdx
    exact List.findIdx_lt_length_of_exists ⟨_, hfmem, by simp⟩
  have hpos0 : 0 < c.memberKeys.length := lt_of_le_of_lt (Nat.zero_le _) hidxlt
  have hatidx : c.memberKeys.getD (c.ownerIdx (c.hasher (strBytes owner))) 0 =
      c.hasher (strBytes owner) := by
    have hw := @List.findIdx_getElem _
      (fun k => decide (k = c.hasher (strBytes owner))) c.memberKeys hidxlt
    have hw2 := of_decide_eq_true hw
    rw [List.getD_eq_getElem?_getD, List.getElem?_eq_getElem hidxlt]
    exact hw2
  have hownval : agetD (c.memberKeys.getD
      (c.ownerIdx (c.hasher (strBytes owner))) 0) "" c.memberKeyMap = owner := by
    obtain ⟨nm, hnm, hkey, hval⟩ := hentry _ hidxlt
    rw [hval]
    exact hinj nm hnm owner howner (by rw [← hkey, hatidx])
  have hcnt : count.toNat ≤ c.memberKeys.length := by
    rw [hlen]
    omega
  have hmain : c.closestCore owner count =
      (List.range count.toNat).map (fun t =>
        agetD (c.memberKeys.getD
          ((c.ownerIdx (c.hasher (strBytes owner)) + t) % c.memberKeys.length) 0)
          "" c.memberKeyMap) := by
    unfold WeightedConsistent.closestCore
    rw [if_pos howner]
    show (if c.ownerIdx (c.hasher (strBytes owner)) < c.memberKeys.length then
        [agetD (c.memberKeys.getD (c.ownerIdx (c.hasher (strBytes owner))) 0) ""
          c.memberKeyMap]
      else []) ++
      closestWalk c.memberKeys c.memberKeyMap
        (c.ownerIdx (c.hasher (strBytes owner)))
        (count - ((if c.ownerIdx (c.hasher (strBytes owner)) <
            c.memberKeys.length then
          [agetD (c.memberKeys.getD (c.ownerIdx (c.hasher (strBytes owner))) 0) ""
            c.memberKeyMap]
        else []) : List String).length).toNat = _
    rw [if_pos hidxlt]
    rw [closestWalk_eq_map _ _ _ _ hidxlt]
    have hfuel : (count - ([agetD (c.memberKeys.getD
        (c.ownerIdx (c.hasher (strBytes owner))) 0) "" c.memberKeyMap] :
          List String).length).toNat + 1 = count.toNat := by
      simp only [List.length_singleton]
      omega
    rw [← hfuel, List.range_succ_eq_map, List.map_cons, List.map_map,
      List.singleton_append]
    congr 1
    rw [Nat.add_zero, Nat.mod_eq_of_lt hidxlt]
  rw [hmain]
  refine ⟨by simp, ?_, ?_, ?_⟩
  · refine List.Nodup.map_on ?_ (List.nodup_range _)
    intro t1 ht1 t2 ht2 heq
    have hb1 : t1 < count.toNat := List.mem_range.mp ht1
    have hb2 : t2 < count.toNat := List.mem_range.mp ht2
    have hp1 : (c.ownerIdx (c.hasher (strBytes owner)) + t1) %
        c.memberKeys.length < c.memberKeys.length := Nat.mod_lt _ hpos0
    have hp2 : (c.ownerIdx (c.hasher (strBytes owner)) + t2) %
        c.memberKeys.length < c.memberKeys.length := Nat.mod_lt _ hpos0
    obtain ⟨nm1, hnm1, hkey1, hval1⟩ := hentry _ hp1
    obtain ⟨nm2, hnm2, hkey2, hval2⟩ := hentry _ hp2
    rw [hval1, hval2] at heq
    have hkeq : c.memberKeys.getD ((c.ownerIdx (c.hasher (strBytes owner)) + t1) %
        c.memberKeys.length) 0 =
        c.memberKeys.getD ((c.ownerIdx (c.hasher (strBytes owner)) + t2) %
        c.memberKeys.length) 0 := by
      rw [hkey1, hkey2, heq]
    rw [List.getD_eq_getElem?_getD, List.getElem?_eq_getElem hp1,
      List.getD_eq_getElem?_getD, List.getElem?_eq_getElem hp2] at hkeq
    have hpeq := (hsknd.getElem_inj_iff).mp (by simpa using hkeq)
    have hmeq : t1 ≡ t2 [MOD c.memberKeys.length] :=
      Nat.ModEq.add_left_cancel' _ hpeq
    have ht1m : t1 % c.memberKeys.length = t1 :=
      Nat.mod_eq_of_lt (lt_of_lt_of_le hb1 hcnt)
    have ht2m : t2 % c.memberKeys.length = t2 :=
      Nat.mod_eq_of_lt (lt_of_lt_of_le hb2 hcnt)
    have := hmeq
    unfold Nat.ModEq at this
    rw [ht1m, ht2m] at this
    exact this
  · obtain ⟨k, hk⟩ : ∃ k, count.toNat = k + 1 := ⟨count.toNat - 1, by omega⟩
    rw [hk, List.range_succ_eq_map, List.map_cons, List.head?_cons,
      Nat.add_zero, Nat.mod_eq_of_lt hidxlt, hownval]
  · intro x hx
    obtain ⟨t, ht, hxval⟩ := List.mem_map.mp hx
    have hp : (c.ownerIdx (c.hasher (strBytes owner)) + t) %
        c.memberKeys.length < c.memberKeys.length := Nat.mod_lt _ hpos0
    obtain ⟨nm, hnm, -, hval⟩ := hentry _ hp
    rw [← hxval, hval]
    exact hnm

/-- Claim C6 (amended): on a reachable populated ring with collision-free
member-identity hashes, `GetClosestN` with `1 ≤ count ≤ memberCount` returns
exactly `count` distinct registered members starting from and including the
owner of the key's partition, and with `count > memberCount` it returns the
distinguishable insufficient-members error.  (For `count ≤ 0` it still
returns the one-element owner list, not an empty one — see the
counterexample; `GetClosestNForPartition` shares the same core.) -/
theorem getClosestN_count (c : WeightedConsistent) (hr : Reachable c)
    (hne : c.members ≠ []) (hpc : 0 < c.partitionCount)
    (hinj : ∀ a ∈ c.members, ∀ b ∈ c.members,
      c.hasher (strBytes a) = c.hasher (strBytes b) → a = b)
    (key : List Nat) (count : Int) :
    ((c.members.length : Int) < count →
      c.GetClosestN key count = some ClosestResult.insufficient) ∧
    (1 ≤ count → count ≤ (c.members.length : Int) →
      ∃ owner l, alookup (c.FindPartitionID key) c.partitions = some owner ∧
        c.GetClosestN key count = some (ClosestResult.ok l) ∧
        l.length = count.toNat ∧ l.Nodup ∧ l.head? = some owner ∧
        ∀ x ∈ l, x ∈ c.members) := by
  obtain ⟨hnd, -, -, htab⟩ := reachable_stateWF hr
  obtain ⟨hkeys, hvals, -, -, -, -⟩ := htab hne
  constructor
  · intro hcount
    unfold WeightedConsistent.GetClosestN WeightedConsistent.getClosestN
    rw [if_pos hcount]
  · intro h1 h2
    have hpid : c.FindPartitionID key < c.partitionCount := Nat.mod_lt _ hpc
    have hpmem : c.FindPartitionID key ∈ c.partitions.map Prod.fst := by
      rw [hkeys]
      exact List.mem_range.mpr hpid
    obtain ⟨owner, hown⟩ := alookup_isSome_of_mem_keys hpmem
    have howner : owner ∈ c.members := hvals _ _ hown
    obtain ⟨hl1, hl2, hl3, hl4⟩ :=
      closestCore_spec c owner count hnd hinj howner h1 h2
    refine ⟨owner, c.closestCore owner count, hown, ?_, hl1, hl2, hl3, hl4⟩
    unfold WeightedConsistent.GetClosestN WeightedConsistent.getClosestN
    rw [if_neg (not_lt.mpr h2), if_neg hne, hown]

/-- Claim C6 counterexample: on the reachable populated ring `cS`,
`count = 0` satisfies `count ≤ memberCount`, but `GetClosestN` returns the
one-element sequence holding the owner rather than a sequence of exactly
`count = 0` members: the owner-locating loop appends the owner before the
count check. -/
theorem getClosestN_zero_count_cex :
    (0 : Int) ≤ (cS.members.length : Int) ∧
    cS.GetClosestN [0] 0 = some (ClosestResult.ok ["a"]) ∧
    (["a"] : List String).length ≠ 0 := by decide

theorem getClosestN_count_witness :
    cS.GetClosestN [0] 2 = some ClosestResult.insufficient ∧
    (cS.GetClosestN [0] 1).isSome := by
  have h := getClosestN_count cS reachable_cS (by decide) (by decide)
    (by decide) [0]
  constructor
  · exact (h 2).1 (by decide)
  · obtain ⟨owner, l, -, hres, -, -, -, -⟩ := (h 1).2 (by decide) (by decide)
    rw [hres]
    rfl
